import Mathlib

/-!
Verification of the ini_core streaming INI parser.

The development shallowly embeds the Rust sources:
* `src/parse/generic.rs` — the scalar boundary scanner (`find_nl`, `find_nl_chr`);
* `src/parse/swar32.rs`, `src/parse/swar64.rs` — the word-parallel (SWAR) scanners;
* `src/parse/sse2.rs`, `src/parse/avx2.rs` — the vector scanners (SIMD intrinsics are
  given their documented lane-wise semantics over lists of bytes);
* `src/lib.rs` — the `Item` element type, `trim`, the `Parser` state and its
  `next` / `skip_ln` routines.

Byte strings are lists of naturals; a byte is a natural below 256.  Machine-word
arithmetic in the SWAR scanners is modelled on `Nat` with explicit reductions
modulo `2 ^ 64` (resp. `2 ^ 32`) where the source performs `u64`/`u32` operations.
-/

set_option maxHeartbeats 4000000
set_option maxRecDepth 100000

namespace IniCore

/-- Scalar scanner from `src/parse/generic.rs`: index of the first `b'\n'` (10) or
`b'\r'` (13), or the length if none occurs. -/
def find_nl : List Nat → Nat
  | [] => 0
  | b :: s => if b = 10 ∨ b = 13 then 0 else find_nl s + 1

/-- Scalar scanner from `src/parse/generic.rs`: index of the first `b'\n'` (10),
`b'\r'` (13) or `chr`, or the length if none occurs. -/
def find_nl_chr : List Nat → Nat → Nat
  | [], _ => 0
  | b :: s, chr => if b = 10 ∨ b = 13 ∨ b = chr then 0 else find_nl_chr s chr + 1

/-- The `Item` enum of `src/lib.rs`; payload strings are byte lists. -/
inductive Item where
  | Error (text : List Nat)
  | Section (name : List Nat)
  | SectionEnd
  | Property (key : List Nat) (value : Option (List Nat))
  | Comment (text : List Nat)
  | Blank
  deriving DecidableEq, Repr

/-- Rust `u8::is_ascii_whitespace`: space, tab, line feed, form feed, carriage return. -/
def is_ascii_whitespace (b : Nat) : Bool :=
  b = 32 || b = 9 || b = 10 || b = 12 || b = 13

/-- The `trim` function of `src/lib.rs`: strips ascii whitespace from both ends. -/
def trim (s : List Nat) : List Nat :=
  ((s.dropWhile is_ascii_whitespace).reverse.dropWhile is_ascii_whitespace).reverse

/-- Rust slice expression `s[a..b]`. -/
def slice (s : List Nat) (a b : Nat) : List Nat :=
  (s.drop a).take (b - a)

/-- The `Parser` struct of `src/lib.rs`.  The `line` counter is a `u32` in the
source; it is modelled as a natural with the increment in `skip_ln` taken
modulo `2 ^ 32`, reproducing the release-mode wraparound. -/
structure Parser where
  line : Nat
  comment_char : Nat
  auto_trim : Bool
  section_ended : Bool
  state : List Nat
  deriving DecidableEq, Repr

/-- `Parser::new`. -/
def Parser.new (s : List Nat) : Parser :=
  { line := 0, comment_char := 59, auto_trim := false, section_ended := false, state := s }

/-- `Parser::comment_char` builder (the comment byte is masked to 7 bits). -/
def Parser.with_comment_char (p : Parser) (chr : Nat) : Parser :=
  { p with comment_char := Nat.land chr 0x7f }

/-- `Parser::auto_trim` builder. -/
def Parser.with_auto_trim (p : Parser) (b : Bool) : Parser :=
  { p with auto_trim := b }

/-- `Parser::skip_ln` of `src/lib.rs`: consume a line terminator (a `\r`, then a
following `\n` if present) at the head of `s`, bump the `u32` line counter
(wrapping modulo `2 ^ 32`) when `s` is nonempty, and store `s` as the new
cursor. -/
def Parser.skip_ln (p : Parser) (s : List Nat) : Parser :=
  if s = [] then { p with state := s }
  else
    let s1 := if s.headD 0 = 13 then s.tail else s
    let s2 := if s1 ≠ [] ∧ s1.headD 0 = 10 then s1.tail else s1
    { p with state := s2, line := (p.line + 1) % 4294967296 }

/-- `Parser::next` (the `Iterator` impl) of `src/lib.rs`.  Returns the produced
element (or none) together with the successor parser state. -/
def Parser.next (p : Parser) : Option Item × Parser :=
  match p.state with
  | [] =>
    if p.section_ended then (none, p)
    else (some Item.SectionEnd, { p with section_ended := true })
  | c :: rest =>
    if c = 13 ∨ c = 10 then
      (some Item.Blank, p.skip_ln (c :: rest))
    else if c = p.comment_char then
      let s := rest
      let i := find_nl s
      let comment := s.take i
      let comment := if p.auto_trim then trim comment else comment
      (some (Item.Comment comment), p.skip_ln (s.drop i))
    else if c = 91 then
      if p.section_ended then
        let q := { p with section_ended := false }
        let s := c :: rest
        let i := find_nl s
        if s.getD (i - 1) 0 ≠ 93 then
          (some (Item.Error (s.take i)), q.skip_ln (s.drop i))
        else
          let sec := slice s 1 (i - 1)
          let sec := if p.auto_trim then trim sec else sec
          (some (Item.Section sec), q.skip_ln (s.drop i))
      else
        (some Item.SectionEnd, { p with section_ended := true })
    else
      let s := c :: rest
      let i := find_nl_chr s 61
      let key := s.take i
      let key := if p.auto_trim then trim key else key
      if s[i]? ≠ some 61 then
        let q := p.skip_ln (s.drop i)
        if key = [] then (some Item.Blank, q)
        else (some (Item.Property key none), q)
      else
        let s2 := s.drop (i + 1)
        let j := find_nl s2
        let value := s2.take j
        let value := if p.auto_trim then trim value else value
        (some (Item.Property key (some value)), p.skip_ln (s2.drop j))

/-- Termination measure for repeated pulls: twice the cursor length plus one
when the final section flush is still owed. -/
def pmeasure (p : Parser) : Nat :=
  2 * p.state.length + (if p.section_ended then 0 else 1)

/-- Fuelled iteration of `Parser::next`, collecting the produced elements. -/
def itemsFuel : Nat → Parser → List Item
  | 0, _ => []
  | n + 1, p =>
    match p.next with
    | (none, _) => []
    | (some it, p') => it :: itemsFuel n p'

/-- The full element sequence produced by pulling the parser to exhaustion.
The fuel `pmeasure p + 1` is shown sufficient by `itemsFuel_stable`. -/
def items (p : Parser) : List Item :=
  itemsFuel (pmeasure p + 1) p

/-- The element returned by the `n`-th pull (0-based). -/
def nthPull : Nat → Parser → Option Item
  | 0, p => p.next.1
  | n + 1, p => nthPull n p.next.2

/-- Recognizer for the `SectionEnd` element. -/
def isSectionEnd : Item → Bool
  | Item.SectionEnd => true
  | _ => false

/-- Recognizer for `Section` elements. -/
def isSection : Item → Bool
  | Item.Section _ => true
  | _ => false

/-- Recognizer for `Error` elements. -/
def isError : Item → Bool
  | Item.Error _ => true
  | _ => false

/-- Little-endian value of a byte list, as read by `read_unaligned` on a word
pointer in `src/parse/swar64.rs` / `swar32.rs`. -/
def readLE : List Nat → Nat
  | [] => 0
  | b :: bs => b + 256 * readLE bs

/-- Fuelled count of trailing zero bits: halve while even, at most `fuel` times. -/
def ctzAux : Nat → Nat → Nat
  | 0, _ => 0
  | fuel + 1, n => if n % 2 = 1 then 0 else ctzAux fuel (n / 2) + 1

/-- Rust `uN::trailing_zeros`: the bit width for input `0`, else the index of
the lowest set bit (for inputs below `2 ^ width`). -/
def trailing_zeros (width n : Nat) : Nat :=
  ctzAux width n

/-- The `cmpeq` bit trick of `src/parse/swar64.rs` on 64-bit words: produces
`0x80` in every byte lane where `needle` and `haystack` agree, `0` elsewhere. -/
def cmpeq64 (needle haystack : Nat) : Nat :=
  let neq := Nat.xor (Nat.xor needle haystack) (2 ^ 64 - 1)
  let t0 := (Nat.land neq 0x7f7f7f7f7f7f7f7f + 0x0101010101010101) % 2 ^ 64
  let t1 := Nat.land neq 0x8080808080808080
  Nat.land t0 t1

/-- The `cmpeq` bit trick of `src/parse/swar32.rs` on 32-bit words. -/
def cmpeq32 (needle haystack : Nat) : Nat :=
  let neq := Nat.xor (Nat.xor needle haystack) (2 ^ 32 - 1)
  let t0 := (Nat.land neq 0x7f7f7f7f + 0x01010101) % 2 ^ 32
  let t1 := Nat.land neq 0x80808080
  Nat.land t0 t1

/-- Lane-wise semantics of the `_mm_cmpeq_epi8` / `_mm256_cmpeq_epi8`
intrinsics: `0xff` in each equal lane, `0` elsewhere. -/
def cmpeq_epi8 (a b : List Nat) : List Nat :=
  List.zipWith (fun x y => if x = y then 255 else 0) a b

/-- Lane-wise semantics of the `_mm_or_si128` / `_mm256_or_si256` intrinsics. -/
def or_epi8 (a b : List Nat) : List Nat :=
  List.zipWith Nat.lor a b

/-- Semantics of the `_mm_movemask_epi8` / `_mm256_movemask_epi8` intrinsics:
bit `i` of the result is the high bit of lane `i`. -/
def movemask_epi8 : List Nat → Nat
  | [] => 0
  | b :: v => (if b.testBit 7 then 1 else 0) + 2 * movemask_epi8 v

namespace swar64

/-- The 64-bit SWAR scanner `find_nl` of `src/parse/swar64.rs`: the word loop
is expressed as recursion over 8-byte chunks; the sub-word tail falls back to
the scalar scanner. -/
def find_nl : List Nat → Nat
  | b0 :: b1 :: b2 :: b3 :: b4 :: b5 :: b6 :: b7 :: rest =>
    let n_lit := 10 * 0x0101010101010101
    let r_lit := 13 * 0x0101010101010101
    let word := readLE [b0, b1, b2, b3, b4, b5, b6, b7]
    let mask := Nat.lor (cmpeq64 n_lit word) (cmpeq64 r_lit word)
    if mask ≠ 0 then trailing_zeros 64 mask >>> 3
    else 8 + find_nl rest
  | s => IniCore.find_nl s

/-- The 64-bit SWAR scanner `find_nl_chr` of `src/parse/swar64.rs`. -/
def find_nl_chr : List Nat → Nat → Nat
  | b0 :: b1 :: b2 :: b3 :: b4 :: b5 :: b6 :: b7 :: rest, chr =>
    let n_lit := 10 * 0x0101010101010101
    let r_lit := 13 * 0x0101010101010101
    let c_lit := chr * 0x0101010101010101
    let word := readLE [b0, b1, b2, b3, b4, b5, b6, b7]
    let mask :=
      Nat.lor (Nat.lor (cmpeq64 n_lit word) (cmpeq64 r_lit word)) (cmpeq64 c_lit word)
    if mask ≠ 0 then trailing_zeros 64 mask >>> 3
    else 8 + find_nl_chr rest chr
  | s, chr => IniCore.find_nl_chr s chr

end swar64

namespace swar32

/-- The 32-bit SWAR scanner `find_nl` of `src/parse/swar32.rs`. -/
def find_nl : List Nat → Nat
  | b0 :: b1 :: b2 :: b3 :: rest =>
    let n_lit := 10 * 0x01010101
    let r_lit := 13 * 0x01010101
    let word := readLE [b0, b1, b2, b3]
    let mask := Nat.lor (cmpeq32 n_lit word) (cmpeq32 r_lit word)
    if mask ≠ 0 then trailing_zeros 32 mask >>> 3
    else 4 + find_nl rest
  | s => IniCore.find_nl s

/-- The 32-bit SWAR scanner `find_nl_chr` of `src/parse/swar32.rs`. -/
def find_nl_chr : List Nat → Nat → Nat
  | b0 :: b1 :: b2 :: b3 :: rest, chr =>
    let n_lit := 10 * 0x01010101
    let r_lit := 13 * 0x01010101
    let c_lit := chr * 0x01010101
    let word := readLE [b0, b1, b2, b3]
    let mask :=
      Nat.lor (Nat.lor (cmpeq32 n_lit word) (cmpeq32 r_lit word)) (cmpeq32 c_lit word)
    if mask ≠ 0 then trailing_zeros 32 mask >>> 3
    else 4 + find_nl_chr rest chr
  | s, chr => IniCore.find_nl_chr s chr

end swar32

namespace sse2

/-- The SSE2 scanner `find_nl` of `src/parse/sse2.rs`: the 16-byte block loop
expressed as recursion; the tail falls back to the scalar scanner. -/
def find_nl : List Nat → Nat
  | b0 :: b1 :: b2 :: b3 :: b4 :: b5 :: b6 :: b7 :: b8 :: b9 :: b10 :: b11 ::
      b12 :: b13 :: b14 :: b15 :: rest =>
    let n_lit := List.replicate 16 10
    let r_lit := List.replicate 16 13
    let block := [b0, b1, b2, b3, b4, b5, b6, b7, b8, b9, b10, b11, b12, b13, b14, b15]
    let mask := movemask_epi8 (or_epi8 (cmpeq_epi8 n_lit block) (cmpeq_epi8 r_lit block))
    if mask ≠ 0 then trailing_zeros 32 mask
    else 16 + find_nl rest
  | s => IniCore.find_nl s

/-- The SSE2 scanner `find_nl_chr` of `src/parse/sse2.rs`. -/
def find_nl_chr : List Nat → Nat → Nat
  | b0 :: b1 :: b2 :: b3 :: b4 :: b5 :: b6 :: b7 :: b8 :: b9 :: b10 :: b11 ::
      b12 :: b13 :: b14 :: b15 :: rest, chr =>
    let n_lit := List.replicate 16 10
    let r_lit := List.replicate 16 13
    let c_lit := List.replicate 16 chr
    let block := [b0, b1, b2, b3, b4, b5, b6, b7, b8, b9, b10, b11, b12, b13, b14, b15]
    let mask := movemask_epi8 (or_epi8 (or_epi8 (cmpeq_epi8 n_lit block)
      (cmpeq_epi8 r_lit block)) (cmpeq_epi8 c_lit block))
    if mask ≠ 0 then trailing_zeros 32 mask
    else 16 + find_nl_chr rest chr
  | s, chr => IniCore.find_nl_chr s chr

end sse2

namespace avx2

/-- The AVX2 scanner `find_nl` of `src/parse/avx2.rs`, over 32-byte blocks. -/
def find_nl : List Nat → Nat
  | b0 :: b1 :: b2 :: b3 :: b4 :: b5 :: b6 :: b7 :: b8 :: b9 :: b10 :: b11 ::
      b12 :: b13 :: b14 :: b15 :: b16 :: b17 :: b18 :: b19 :: b20 :: b21 :: b22 ::
      b23 :: b24 :: b25 :: b26 :: b27 :: b28 :: b29 :: b30 :: b31 :: rest =>
    let n_lit := List.replicate 32 10
    let r_lit := List.replicate 32 13
    let block := [b0, b1, b2, b3, b4, b5, b6, b7, b8, b9, b10, b11, b12, b13, b14, b15,
      b16, b17, b18, b19, b20, b21, b22, b23, b24, b25, b26, b27, b28, b29, b30, b31]
    let mask := movemask_epi8 (or_epi8 (cmpeq_epi8 n_lit block) (cmpeq_epi8 r_lit block))
    if mask ≠ 0 then trailing_zeros 32 mask
    else 32 + find_nl rest
  | s => IniCore.find_nl s

/-- The AVX2 scanner `find_nl_chr` of `src/parse/avx2.rs`. -/
def find_nl_chr : List Nat → Nat → Nat
  | b0 :: b1 :: b2 :: b3 :: b4 :: b5 :: b6 :: b7 :: b8 :: b9 :: b10 :: b11 ::
      b12 :: b13 :: b14 :: b15 :: b16 :: b17 :: b18 :: b19 :: b20 :: b21 :: b22 ::
      b23 :: b24 :: b25 :: b26 :: b27 :: b28 :: b29 :: b30 :: b31 :: rest, chr =>
    let n_lit := List.replicate 32 10
    let r_lit := List.replicate 32 13
    let c_lit := List.replicate 32 chr
    let block := [b0, b1, b2, b3, b4, b5, b6, b7, b8, b9, b10, b11, b12, b13, b14, b15,
      b16, b17, b18, b19, b20, b21, b22, b23, b24, b25, b26, b27, b28, b29, b30, b31]
    let mask := movemask_epi8 (or_epi8 (or_epi8 (cmpeq_epi8 n_lit block)
      (cmpeq_epi8 r_lit block)) (cmpeq_epi8 c_lit block))
    if mask ≠ 0 then trailing_zeros 32 mask
    else 32 + find_nl_chr rest chr
  | s, chr => IniCore.find_nl_chr s chr

end avx2

/-! ### Properties of the scalar boundary scanner -/

theorem find_nl_le (s : List Nat) : find_nl s ≤ s.length := by
  induction s with
  | nil => simp [find_nl]
  | cons b t ih => simp only [find_nl, List.length_cons]; split <;> omega

theorem find_nl_chr_le (s : List Nat) (chr : Nat) : find_nl_chr s chr ≤ s.length := by
  induction s with
  | nil => simp [find_nl_chr]
  | cons b t ih => simp only [find_nl_chr, List.length_cons]; split <;> omega

theorem find_nl_before (s : List Nat) (j : Nat) (hj : j < find_nl s) :
    ¬(s.getD j 0 = 10 ∨ s.getD j 0 = 13) := by
  induction s generalizing j with
  | nil => simp [find_nl] at hj
  | cons b t ih =>
    by_cases hb : b = 10 ∨ b = 13
    · simp [find_nl, if_pos hb] at hj
    · simp only [find_nl, if_neg hb] at hj
      cases j with
      | zero => simp only [List.getD_cons_zero]; tauto
      | succ k => simp only [List.getD_cons_succ]; exact ih k (by omega)

theorem find_nl_hit (s : List Nat) (h : find_nl s < s.length) :
    s.getD (find_nl s) 0 = 10 ∨ s.getD (find_nl s) 0 = 13 := by
  induction s with
  | nil => simp [find_nl] at h
  | cons b t ih =>
    by_cases hb : b = 10 ∨ b = 13
    · simp only [find_nl, if_pos hb, List.getD_cons_zero]; exact hb
    · simp only [find_nl, if_neg hb, List.length_cons, List.getD_cons_succ] at h ⊢
      exact ih (by omega)

theorem find_nl_chr_before (s : List Nat) (chr j : Nat) (hj : j < find_nl_chr s chr) :
    ¬(s.getD j 0 = 10 ∨ s.getD j 0 = 13 ∨ s.getD j 0 = chr) := by
  induction s generalizing j with
  | nil => simp [find_nl_chr] at hj
  | cons b t ih =>
    by_cases hb : b = 10 ∨ b = 13 ∨ b = chr
    · simp [find_nl_chr, if_pos hb] at hj
    · simp only [find_nl_chr, if_neg hb] at hj
      cases j with
      | zero => simp only [List.getD_cons_zero]; tauto
      | succ k => simp only [List.getD_cons_succ]; exact ih k (by omega)

theorem find_nl_chr_hit (s : List Nat) (chr : Nat) (h : find_nl_chr s chr < s.length) :
    s.getD (find_nl_chr s chr) 0 = 10 ∨ s.getD (find_nl_chr s chr) 0 = 13 ∨
      s.getD (find_nl_chr s chr) 0 = chr := by
  induction s with
  | nil => simp [find_nl_chr] at h
  | cons b t ih =>
    by_cases hb : b = 10 ∨ b = 13 ∨ b = chr
    · simp only [find_nl_chr, if_pos hb, List.getD_cons_zero]; exact hb
    · simp only [find_nl_chr, if_neg hb, List.length_cons, List.getD_cons_succ] at h ⊢
      exact ih (by omega)

/-! ### Properties of skip_ln -/

theorem skip_ln_comment_char (p : Parser) (s : List Nat) :
    (p.skip_ln s).comment_char = p.comment_char := by
  unfold Parser.skip_ln; split <;> rfl

theorem skip_ln_auto_trim (p : Parser) (s : List Nat) :
    (p.skip_ln s).auto_trim = p.auto_trim := by
  unfold Parser.skip_ln; split <;> rfl

theorem skip_ln_section_ended (p : Parser) (s : List Nat) :
    (p.skip_ln s).section_ended = p.section_ended := by
  unfold Parser.skip_ln; split <;> rfl

theorem skip_ln_line_eq (p : Parser) (s : List Nat) :
    (p.skip_ln s).line = p.line ∨ (p.skip_ln s).line = (p.line + 1) % 4294967296 := by
  unfold Parser.skip_ln; split
  · exact Or.inl rfl
  · exact Or.inr rfl

theorem skip_ln_state_suffix (p : Parser) (s : List Nat) : (p.skip_ln s).state <:+ s := by
  unfold Parser.skip_ln
  split
  · exact List.suffix_refl _
  · simp only
    split <;> split
    · exact (List.tail_suffix _).trans (List.tail_suffix _)
    · exact List.tail_suffix _
    · exact List.tail_suffix _
    · exact List.suffix_refl _

theorem skip_ln_suffix_of (p : Parser) {s t : List Nat} (h : s <:+ t) :
    (p.skip_ln s).state <:+ t :=
  (skip_ln_state_suffix p s).trans h

theorem skip_ln_length_le (p : Parser) (s : List Nat) :
    (p.skip_ln s).state.length ≤ s.length :=
  (skip_ln_state_suffix p s).length_le

theorem skip_ln_length_lt (p : Parser) (s : List Nat) (hs : s ≠ [])
    (hterm : s.headD 0 = 13 ∨ s.headD 0 = 10) :
    (p.skip_ln s).state.length < s.length := by
  unfold Parser.skip_ln
  rw [if_neg hs]
  simp only
  have hlen : 1 ≤ s.length := List.length_pos.mpr hs
  have htail : s.tail.length = s.length - 1 := List.length_tail s
  by_cases h13 : s.headD 0 = 13
  · rw [if_pos h13]
    split
    · have := List.length_tail s.tail; omega
    · omega
  · rw [if_neg h13]
    have h10 : s.headD 0 = 10 := by tauto
    rw [if_pos ⟨hs, h10⟩]
    omega

/-! ### Structural properties of Parser.next -/

theorem next_state_suffix (p : Parser) : p.next.2.state <:+ p.state := by
  obtain ⟨line, cc, atr, se, st⟩ := p
  cases st with
  | nil => simp only [Parser.next]; split <;> exact List.suffix_refl _
  | cons c rest =>
    simp only [Parser.next]
    split
    · exact skip_ln_state_suffix _ _
    · split
      · exact skip_ln_suffix_of _ ((List.drop_suffix _ _).trans (List.suffix_cons _ _))
      · split
        · split
          · split
            · exact skip_ln_suffix_of _ (List.drop_suffix _ _)
            · exact skip_ln_suffix_of _ (List.drop_suffix _ _)
          · exact List.suffix_refl _
        · split
          · split
            · split <;> exact skip_ln_suffix_of _ (List.drop_suffix _ _)
            · split <;> exact skip_ln_suffix_of _ (List.drop_suffix _ _)
          · exact skip_ln_suffix_of _ ((List.drop_suffix _ _).trans (List.drop_suffix _ _))

theorem find_nl_cons_pos (c : Nat) (rest : List Nat) (h : ¬(c = 10 ∨ c = 13)) :
    find_nl (c :: rest) = find_nl rest + 1 := by
  simp [find_nl, h]

theorem find_nl_chr_cons_pos (c chr : Nat) (rest : List Nat)
    (h : ¬(c = 10 ∨ c = 13 ∨ c = chr)) :
    find_nl_chr (c :: rest) chr = find_nl_chr rest chr + 1 := by
  simp [find_nl_chr, h]

theorem skip_ln_section_ended' (q : Parser) (s : List Nat) (b : Bool)
    (h : q.section_ended = b) : (q.skip_ln s).section_ended = b := by
  rw [skip_ln_section_ended]; exact h

theorem skip_ln_line_eq' (n : Nat) (q : Parser) (s : List Nat) (h : q.line = n) :
    (q.skip_ln s).line = n ∨ (q.skip_ln s).line = (n + 1) % 4294967296 := by
  subst h; exact skip_ln_line_eq q s

theorem skip_ln_length_le' (q : Parser) (s : List Nat) (n : Nat) (h : s.length < n) :
    (q.skip_ln s).state.length < n :=
  lt_of_le_of_lt (skip_ln_length_le q s) h

theorem skip_ln_comment_char' (q : Parser) (s : List Nat) (b : Nat)
    (h : q.comment_char = b) : (q.skip_ln s).comment_char = b := by
  rw [skip_ln_comment_char]; exact h

/-- One-step case analysis of `Parser.next`: a pull is (1) the exhausted
terminal pull, (2) a `SectionEnd` flip that consumes nothing, (3) a
`Section`/`Error` line that consumes input and clears the flag, or (4) a
`Blank`/`Comment`/`Property` line that consumes input and preserves the flag. -/
theorem next_cases (p : Parser) :
    (p.state = [] ∧ p.section_ended = true ∧ p.next = (none, p)) ∨
    (p.section_ended = false ∧ (p.state = [] ∨ p.state.headD 0 = 91) ∧
      p.next = (some Item.SectionEnd, { p with section_ended := true })) ∨
    (p.section_ended = true ∧ p.state ≠ [] ∧ p.state.headD 0 = 91 ∧ p.comment_char ≠ 91 ∧
      (∃ it, p.next.1 = some it ∧ (isSection it = true ∨ isError it = true)) ∧
      p.next.2.section_ended = false ∧ p.next.2.state.length < p.state.length ∧
      (p.next.2.line = p.line ∨ p.next.2.line = (p.line + 1) % 4294967296)) ∨
    ((∃ it, p.next.1 = some it ∧ isSectionEnd it = false ∧ isSection it = false ∧
        isError it = false) ∧
      p.next.2.section_ended = p.section_ended ∧
      p.next.2.state.length < p.state.length ∧
      (p.next.2.line = p.line ∨ p.next.2.line = (p.line + 1) % 4294967296) ∧
      p.next.2.comment_char = p.comment_char ∧
      (p.state.headD 0 = 91 → p.comment_char = 91)) := by
  obtain ⟨line, cc, atr, se, st⟩ := p
  cases st with
  | nil =>
    cases se
    · right; left
      exact ⟨rfl, Or.inl rfl, by simp [Parser.next]⟩
    · left
      exact ⟨rfl, rfl, by simp [Parser.next]⟩
  | cons c rest =>
    simp only [Parser.next]
    split
    next h1 =>
      right; right; right
      refine ⟨⟨_, rfl, ?_, ?_, ?_⟩, skip_ln_section_ended' _ _ _ rfl,
        skip_ln_length_lt _ _ (List.cons_ne_nil _ _) (by simpa using h1),
        skip_ln_line_eq' _ _ _ rfl, skip_ln_comment_char' _ _ _ rfl, ?_⟩
      · rfl
      · rfl
      · rfl
      · intro h
        simp only [List.headD_cons] at h
        rcases h1 with h1 | h1 <;> omega
    next h1 =>
      split
      next h2 =>
        right; right; right
        refine ⟨⟨_, rfl, ?_, ?_, ?_⟩, skip_ln_section_ended' _ _ _ rfl,
          skip_ln_length_le' _ _ _ ?_, skip_ln_line_eq' _ _ _ rfl,
          skip_ln_comment_char' _ _ _ rfl, ?_⟩
        · rfl
        · rfl
        · rfl
        · simp only [List.length_drop, List.length_cons]
          omega
        · intro h
          simp only [List.headD_cons] at h
          omega
      next h2 =>
        split
        next h3 =>
          split
          next hse =>
            have hpos : find_nl (c :: rest) = find_nl rest + 1 :=
              find_nl_cons_pos _ _ (by tauto)
            split
            next h93 =>
              right; right; left
              refine ⟨hse, List.cons_ne_nil _ _, by simp [h3], fun hcc => h2 (by omega),
                ⟨_, rfl, ?_⟩, skip_ln_section_ended' _ _ _ rfl, skip_ln_length_le' _ _ _ ?_,
                skip_ln_line_eq' _ _ _ rfl⟩
              · exact Or.inr rfl
              · simp only [List.length_drop, List.length_cons]
                omega
            next h93 =>
              right; right; left
              refine ⟨hse, List.cons_ne_nil _ _, by simp [h3], fun hcc => h2 (by omega),
                ⟨_, rfl, ?_⟩, skip_ln_section_ended' _ _ _ rfl, skip_ln_length_le' _ _ _ ?_,
                skip_ln_line_eq' _ _ _ rfl⟩
              · exact Or.inl rfl
              · simp only [List.length_drop, List.length_cons]
                omega
          next hse =>
            right; left
            exact ⟨by simpa using hse, Or.inr (by simp [h3]), rfl⟩
        next h3 =>
          right; right; right
          split
          next h61 =>
            have hi1 : 1 ≤ find_nl_chr (c :: rest) 61 := by
              rcases Nat.eq_zero_or_pos (find_nl_chr (c :: rest) 61) with h0 | h
              · exfalso
                have hc : c = 10 ∨ c = 13 ∨ c = 61 := by
                  by_contra hc
                  rw [find_nl_chr_cons_pos c 61 rest hc] at h0
                  omega
                have hc61 : c = 61 := by tauto
                apply h61
                rw [h0]
                simp [hc61]
              · exact h
            split <;> split <;>
              (refine ⟨⟨_, rfl, ?_, ?_, ?_⟩, skip_ln_section_ended' _ _ _ rfl,
                  skip_ln_length_le' _ _ _ ?_, skip_ln_line_eq' _ _ _ rfl,
                  skip_ln_comment_char' _ _ _ rfl, ?_⟩ <;>
                first
                  | rfl
                  | (simp only [List.length_drop, List.length_cons]; omega)
                  | (intro h91; simp only [List.headD_cons] at h91; exact absurd h91 h3))
          next h61 =>
            refine ⟨⟨_, rfl, ?_, ?_, ?_⟩, skip_ln_section_ended' _ _ _ rfl,
              skip_ln_length_le' _ _ _ ?_, skip_ln_line_eq' _ _ _ rfl,
              skip_ln_comment_char' _ _ _ rfl, ?_⟩
            · rfl
            · rfl
            · rfl
            · simp only [List.length_drop, List.length_cons]
              omega
            · intro h91
              simp only [List.headD_cons] at h91
              exact absurd h91 h3

theorem next_none_eq (p : Parser) (h : p.next.1 = none) : p.next.2 = p := by
  rcases next_cases p with ⟨_, _, hn⟩ | ⟨_, _, hn⟩ | ⟨_, _, _, _, ⟨it, hit, _⟩, _⟩ |
    ⟨⟨it, hit, _⟩, _⟩
  · rw [hn]
  · rw [hn] at h; simp at h
  · rw [hit] at h; simp at h
  · rw [hit] at h; simp at h

theorem next_none_state (p : Parser) (h : p.next.1 = none) :
    p.state = [] ∧ p.section_ended = true := by
  rcases next_cases p with ⟨h1, h2, _⟩ | ⟨_, _, hn⟩ | ⟨_, _, _, _, ⟨it, hit, _⟩, _⟩ |
    ⟨⟨it, hit, _⟩, _⟩
  · exact ⟨h1, h2⟩
  · rw [hn] at h; simp at h
  · rw [hit] at h; simp at h
  · rw [hit] at h; simp at h

theorem next_some_pmeasure (p : Parser) (it : Item) (h : p.next.1 = some it) :
    pmeasure p.next.2 < pmeasure p := by
  rcases next_cases p with ⟨_, _, hn⟩ | ⟨hse, _, hn⟩ | ⟨hse, _, _, _, _, hse', hlen, _⟩ |
    ⟨_, hflag, hlen, _⟩
  · rw [hn] at h; simp at h
  · rw [hn]; simp [pmeasure, hse]
  · simp only [pmeasure, hse, hse']
    simp only [if_neg (Bool.false_ne_true), if_pos rfl]
    omega
  · simp only [pmeasure, hflag]
    split <;> omega

theorem next_some_pos (p : Parser) (it : Item) (h : p.next.1 = some it) :
    1 ≤ pmeasure p :=
  Nat.pos_of_ne_zero fun h0 => by
    have := next_some_pmeasure p it h
    omega

theorem itemsFuel_stable (n : Nat) (p : Parser) (hp : pmeasure p < n) :
    itemsFuel n p = itemsFuel (pmeasure p + 1) p := by
  induction n using Nat.strong_induction_on generalizing p with
  | _ n ih =>
    match n, hp with
    | m + 1, hp =>
      rw [itemsFuel, itemsFuel]
      rcases hq : p.next with ⟨fst, p'⟩
      cases fst with
      | none => rfl
      | some a =>
        have hit : p.next.1 = some a := by rw [hq]
        have hm : pmeasure p' < pmeasure p := by
          have := next_some_pmeasure p a hit
          rwa [hq] at this
        show a :: itemsFuel m p' = a :: itemsFuel (pmeasure p) p'
        rw [ih m (by omega) p' (by omega), ih (pmeasure p) (by omega) p' hm]

theorem items_none (p : Parser) (h : p.next.1 = none) : items p = [] := by
  rw [items, itemsFuel]
  rcases hq : p.next with ⟨fst, p'⟩
  rw [hq] at h
  cases fst with
  | none => rfl
  | some a => simp at h

theorem items_some (p : Parser) (it : Item) (h : p.next.1 = some it) :
    items p = it :: items p.next.2 := by
  have hm : pmeasure p.next.2 < pmeasure p := next_some_pmeasure p it h
  rw [items, itemsFuel]
  rcases hq : p.next with ⟨fst, p'⟩
  rw [hq] at h hm
  cases fst with
  | none => simp at h
  | some a =>
    have ha : a = it := by simpa using h
    subst ha
    show a :: itemsFuel (pmeasure p) p' = a :: items p'
    rw [itemsFuel_stable (pmeasure p) p' (by simpa using hm)]
    rfl

theorem nthPull_none_forever (p : Parser) (h : p.next.1 = none) (n : Nat) :
    nthPull n p = none := by
  induction n with
  | zero => exact h
  | succ n ih => rw [nthPull, next_none_eq p h]; exact ih

theorem nthPull_stops (n : Nat) (p : Parser) (h : pmeasure p ≤ n) :
    nthPull n p = none := by
  induction n using Nat.strong_induction_on generalizing p with
  | _ n ih =>
    cases hn1 : p.next.1 with
    | none => exact nthPull_none_forever p hn1 n
    | some it =>
      have h1 : 1 ≤ pmeasure p := next_some_pos p it hn1
      have hlt : pmeasure p.next.2 < pmeasure p := next_some_pmeasure p it hn1
      cases n with
      | zero => exact absurd h (by omega)
      | succ m =>
        rw [nthPull]
        exact ih m (by omega) p.next.2 (by omega)

theorem isSection_spec (it : Item) (h : isSection it = true) :
    isSectionEnd it = false ∧ isError it = false := by
  cases it <;> simp_all [isSection, isSectionEnd, isError]

theorem isError_spec (it : Item) (h : isError it = true) :
    isSectionEnd it = false ∧ isSection it = false := by
  cases it <;> simp_all [isSection, isSectionEnd, isError]

/-- Flag invariant of reachable parser states: the section-ended flag is only
raised over an empty cursor, before a bracket line, or when the comment marker
itself is the bracket byte. -/
def reachInv (p : Parser) : Prop :=
  p.section_ended = true → (p.state = [] ∨ p.state.headD 0 = 91 ∨ p.comment_char = 91)

theorem reachInv_new (s : List Nat) : reachInv (Parser.new s) := by
  intro h
  simp [Parser.new] at h

theorem reachInv_next (p : Parser) (h : reachInv p) : reachInv p.next.2 := by
  rcases next_cases p with ⟨_, _, hn⟩ | ⟨hse, hst, hn⟩ | ⟨_, _, _, _, _, hse', _, _⟩ |
    ⟨_, hflag, hlen, _, hcc, him⟩
  · rw [hn]; exact h
  · rw [hn]
    intro _
    rcases hst with hst | hst
    · exact Or.inl hst
    · exact Or.inr (Or.inl hst)
  · intro hcon
    rw [hse'] at hcon
    simp at hcon
  · intro htrue
    rw [hflag] at htrue
    rcases h htrue with hst | hst | hst
    · exfalso; rw [hst] at hlen; simp at hlen
    · right; right; rw [hcc]; exact him hst
    · right; right; rw [hcc]; exact hst

/-- Counting invariant: over the whole residual element sequence, the number of
`SectionEnd` elements equals sections plus errors, plus the pending flush. -/
theorem items_count_aux (n : Nat) : ∀ p : Parser, pmeasure p ≤ n →
    (items p).countP isSectionEnd =
      (items p).countP isSection + (items p).countP isError +
        (if p.section_ended then 0 else 1) := by
  induction n using Nat.strong_induction_on with
  | _ n ih =>
    intro p hp
    cases hn1 : p.next.1 with
    | none =>
      rw [items_none p hn1]
      obtain ⟨_, hse⟩ := next_none_state p hn1
      simp [hse]
    | some it =>
      rw [items_some p it hn1]
      have h1 : 1 ≤ pmeasure p := next_some_pos p it hn1
      have hlt := next_some_pmeasure p it hn1
      have IH := ih (n - 1) (by omega) p.next.2 (by omega)
      rcases next_cases p with ⟨_, _, hn⟩ | ⟨hse, _, hn⟩ |
        ⟨hse, _, _, _, ⟨a, ha, hrec⟩, hse', _, _⟩ | ⟨⟨a, ha, hr1, hr2, hr3⟩, hflag, _, _⟩
      · rw [hn] at hn1; simp at hn1
      · obtain rfl : it = Item.SectionEnd := by
          rw [hn] at hn1; simpa using hn1.symm
        have hse2 : p.next.2.section_ended = true := by rw [hn]
        rw [hse2] at IH
        simp only [List.countP_cons, hse, IH]
        simp [isSectionEnd, isSection, isError]
      · have haeq : a = it := by rw [ha] at hn1; simpa using hn1
        rw [haeq] at hrec
        rw [hse'] at IH
        rcases hrec with hS | hE
        · obtain ⟨e1, e2⟩ := isSection_spec it hS
          simp only [List.countP_cons, hse, hS, e1, e2, IH]
          simp only [if_pos rfl, if_neg (Bool.false_ne_true), if_true, if_false]
          omega
        · obtain ⟨e1, e2⟩ := isError_spec it hE
          simp only [List.countP_cons, hse, hE, e1, e2, IH]
          simp only [if_pos rfl, if_neg (Bool.false_ne_true), if_true, if_false]
          omega
      · have haeq : a = it := by rw [ha] at hn1; simpa using hn1
        rw [haeq] at hr1 hr2 hr3
        rw [hflag] at IH
        simp only [List.countP_cons, hr1, hr2, hr3, IH]
        simp only [if_pos rfl, if_neg (Bool.false_ne_true), if_true, if_false]
        omega

theorem items_count (p : Parser) :
    (items p).countP isSectionEnd =
      (items p).countP isSection + (items p).countP isError +
        (if p.section_ended then 0 else 1) :=
  items_count_aux (pmeasure p) p (le_refl _)

theorem head_sec_err (p : Parser) (a : Item) (h0 : p.next.1 = some a)
    (hsec : isSection a = true ∨ isError a = true) :
    p.section_ended = true ∧ p.comment_char ≠ 91 := by
  rcases next_cases p with ⟨_, _, hn⟩ | ⟨_, _, hn⟩ | ⟨hse, _, _, hcc, _, _⟩ |
    ⟨⟨b, hb, hb1, hb2, hb3⟩, _⟩
  · rw [hn] at h0; simp at h0
  · rw [hn] at h0
    have ha : Item.SectionEnd = a := by simpa using h0
    rw [← ha] at hsec
    simp [isSection, isError] at hsec
  · exact ⟨hse, hcc⟩
  · have hba : b = a := by rw [hb] at h0; simpa using h0
    rw [hba] at hb2 hb3
    rcases hsec with hs | hs
    · rw [hb2] at hs; simp at hs
    · rw [hb3] at hs; simp at hs

/-- In the element sequence of a reachable parser state, every `Section` or
`Error` element at a positive index is immediately preceded by `SectionEnd`. -/
theorem preceded_aux (n : Nat) : ∀ p : Parser, pmeasure p ≤ n → reachInv p →
    ∀ j, 0 < j → j < (items p).length →
    (isSection ((items p).getD j Item.Blank) = true ∨
      isError ((items p).getD j Item.Blank) = true) →
    (items p).getD (j - 1) Item.Blank = Item.SectionEnd := by
  induction n using Nat.strong_induction_on with
  | _ n ih =>
    intro p hp hinv j hj0 hj hsec
    cases hn1 : p.next.1 with
    | none =>
      rw [items_none p hn1] at hj
      simp at hj
    | some it =>
      have h1 := next_some_pos p it hn1
      have hlt := next_some_pmeasure p it hn1
      have hitems := items_some p it hn1
      rw [hitems] at hj hsec ⊢
      match j, hj0 with
      | k + 1, _ =>
        simp only [List.getD_cons_succ] at hsec
        simp only [Nat.add_sub_cancel]
        cases k with
        | zero =>
          simp only [List.getD_cons_zero]
          have hlen' : 0 < (items p.next.2).length := by
            simp only [List.length_cons] at hj; omega
          obtain ⟨a, ha⟩ : ∃ a, p.next.2.next.1 = some a := by
            cases hq : p.next.2.next.1 with
            | none => rw [items_none _ hq] at hlen'; simp at hlen'
            | some a => exact ⟨a, rfl⟩
          have hhead : items p.next.2 = a :: items p.next.2.next.2 := items_some _ a ha
          rw [hhead] at hsec
          simp only [List.getD_cons_zero] at hsec
          obtain ⟨hse', hcc'⟩ := head_sec_err p.next.2 a ha hsec
          rcases next_cases p with ⟨_, _, hn⟩ | ⟨_, _, hn⟩ | ⟨_, _, _, _, _, hsef, _, _⟩ |
            ⟨⟨b, hb, _, _, _⟩, hflag, hlen, _, hcc, him⟩
          · rw [hn] at hn1; simp at hn1
          · rw [hn] at hn1
            have : Item.SectionEnd = it := by simpa using hn1
            exact this.symm
          · rw [hsef] at hse'; simp at hse'
          · have hsep : p.section_ended = true := by rw [← hflag]; exact hse'
            rcases hinv hsep with hst | hst | hst
            · rw [hst] at hlen; simp at hlen
            · exact absurd (hcc.trans (him hst)) hcc'
            · exact absurd (hcc.trans hst) hcc'
        | succ m =>
          simp only [List.getD_cons_succ]
          exact ih (n - 1) (by omega) p.next.2 (by omega) (reachInv_next p hinv)
            (m + 1) (by omega) (by simp only [List.length_cons] at hj; omega) hsec

/-- The malformed-section-header branch of `Parser::next`, fully computed: the
raw line (no trimming) is returned as `Error`, the flag is cleared first, and
the cursor is advanced past the line. -/
theorem error_step (p : Parser) (hne : p.state ≠ []) (hhead : p.state.headD 0 = 91)
    (hse : p.section_ended = true) (hcc : p.comment_char ≠ 91)
    (hmal : p.state.getD (find_nl p.state - 1) 0 ≠ 93) :
    p.next = (some (Item.Error (p.state.take (find_nl p.state))),
      Parser.skip_ln { p with section_ended := false }
        (p.state.drop (find_nl p.state))) := by
  obtain ⟨line, cc, atr, se, st⟩ := p
  cases st with
  | nil => exact absurd rfl hne
  | cons c rest =>
    simp only [List.headD_cons] at hhead
    subst hhead
    simp only at hse hcc hmal
    subst hse
    simp only [Parser.next]
    rw [if_neg (show ¬((91 : Nat) = 13 ∨ (91 : Nat) = 10) by decide),
      if_neg (fun h => hcc h.symm), if_pos trivial, if_pos trivial, if_pos hmal]

theorem next_line_eq (p : Parser) :
    p.next.2.line = p.line ∨ p.next.2.line = (p.line + 1) % 4294967296 := by
  rcases next_cases p with ⟨_, _, hn⟩ | ⟨_, _, hn⟩ | ⟨_, _, _, _, _, _, _, hl⟩ |
    ⟨_, _, _, hl, _⟩
  · rw [hn]; exact Or.inl rfl
  · rw [hn]; exact Or.inl rfl
  · exact hl
  · exact hl

/-! ### Claim theorems -/

/-- C4: for every byte slice `s`, `find_nl s` is at most the length, every byte
strictly before it is neither `\n` nor `\r`, and when it is a proper index the
byte there is `\n` or `\r` (so it is the index of the first terminator, or the
length when none exists); correspondingly for `find_nl_chr` with the extra
byte `chr`. -/
theorem claim_C4 (s : List Nat) (chr : Nat) :
    (find_nl s ≤ s.length ∧
      (∀ j, j < find_nl s → ¬(s.getD j 0 = 10 ∨ s.getD j 0 = 13)) ∧
      (find_nl s < s.length → (s.getD (find_nl s) 0 = 10 ∨ s.getD (find_nl s) 0 = 13))) ∧
    (find_nl_chr s chr ≤ s.length ∧
      (∀ j, j < find_nl_chr s chr →
        ¬(s.getD j 0 = 10 ∨ s.getD j 0 = 13 ∨ s.getD j 0 = chr)) ∧
      (find_nl_chr s chr < s.length →
        (s.getD (find_nl_chr s chr) 0 = 10 ∨ s.getD (find_nl_chr s chr) 0 = 13 ∨
          s.getD (find_nl_chr s chr) 0 = chr))) :=
  ⟨⟨find_nl_le s, fun j hj => find_nl_before s j hj, fun h => find_nl_hit s h⟩,
   ⟨find_nl_chr_le s chr, fun j hj => find_nl_chr_before s chr j hj,
    fun h => find_nl_chr_hit s chr h⟩⟩

theorem claim_C4_witness :
    ([65, 10, 66] : List Nat).getD (find_nl [65, 10, 66]) 0 = 10 ∨
      ([65, 10, 66] : List Nat).getD (find_nl [65, 10, 66]) 0 = 13 :=
  (claim_C4 [65, 10, 66] 61).1.2.2 (by decide)

/-- C8: the scanners are total and in-bounds: both return at most the length;
on a line whose first byte is `[` the returned index is at least 1 (so the
access at index `i - 1` is in bounds), and when the byte at `i - 1` is `]` the
index is at least 2 (so the slice from 1 to `i - 1` is well formed).  Together
with the totality of `Parser.next` as a Lean function this shows no pull can
index out of bounds. -/
theorem claim_C8 (s : List Nat) (chr : Nat) :
    find_nl s ≤ s.length ∧ find_nl_chr s chr ≤ s.length ∧
    (s ≠ [] → s.headD 0 = 91 →
      1 ≤ find_nl s ∧ find_nl s - 1 < s.length ∧
      (s.getD (find_nl s - 1) 0 = 93 → 2 ≤ find_nl s)) := by
  refine ⟨find_nl_le s, find_nl_chr_le s chr, ?_⟩
  intro hne hhead
  cases s with
  | nil => exact absurd rfl hne
  | cons c rest =>
    simp only [List.headD_cons] at hhead
    subst hhead
    have hpos : find_nl (91 :: rest) = find_nl rest + 1 := find_nl_cons_pos _ _ (by decide)
    have hle := find_nl_le (91 :: rest)
    simp only [List.length_cons] at hle
    refine ⟨by omega, by simp only [List.length_cons]; omega, ?_⟩
    intro h93
    by_contra hlt
    have h1 : find_nl (91 :: rest) = 1 := by omega
    rw [h1] at h93
    simp at h93

theorem claim_C8_witness :
    (1 ≤ find_nl [91, 97] ∧ find_nl [91, 97] - 1 < ([91, 97] : List Nat).length ∧
      (([91, 97] : List Nat).getD (find_nl [91, 97] - 1) 0 = 93 → 2 ≤ find_nl [91, 97])) ∧
    2 ≤ find_nl [91, 93] :=
  ⟨(claim_C8 [91, 97] 61).2.2 (by decide) (by decide),
   ((claim_C8 [91, 93] 61).2.2 (by decide) (by decide)).2.2 (by decide)⟩

/-- C9 counterexample: the line counter is a `u32` in the source, and the
increment in `skip_ln` wraps at `2 ^ 32`; on a parser positioned at line
`u32::MAX` whose cursor holds one more terminator, the pull wraps the counter
to `0`, so "the line counter never decreases" is false of the program. -/
theorem claim_C9_counterexample :
    ¬ ∀ p : Parser, List.IsSuffix p.next.2.state p.state ∧ p.line ≤ p.next.2.line :=
  fun h => absurd (h ⟨4294967295, 59, false, false, [10]⟩).2 (by decide)

/-- C9 as amended: on every call of `Parser.next` the new cursor is a suffix of
the old cursor (it shrinks monotonically and never seeks backward), and the
`u32` line counter is either unchanged or incremented modulo `2 ^ 32`; in
particular it never decreases while it is below `u32::MAX`, and it can only
decrease by wrapping from `u32::MAX` to `0`. -/
theorem claim_C9_amended (p : Parser) :
    List.IsSuffix p.next.2.state p.state ∧
    (p.next.2.line = p.line ∨ p.next.2.line = (p.line + 1) % 4294967296) ∧
    (p.line < 4294967295 → p.line ≤ p.next.2.line) := by
  refine ⟨next_state_suffix p, next_line_eq p, ?_⟩
  intro hlt
  rcases next_line_eq p with h | h
  · omega
  · have hmod : (p.line + 1) % 4294967296 = p.line + 1 := Nat.mod_eq_of_lt (by omega)
    omega

theorem claim_C9_witness :
    (Parser.new [91]).line < 4294967295 ∧
      (Parser.new [91]).line ≤ (Parser.new [91]).next.2.line :=
  ⟨by decide, (claim_C9_amended (Parser.new [91])).2.2 (by decide)⟩

/-- C5: a pull that returns nothing leaves the parser unchanged; a pull that
produces an element either strictly shrinks the cursor or flips the
section-ended flag from false to true without consuming input; a non-consuming
flip can never be followed immediately by another non-consuming flip; and after
at most `pmeasure p` pulls every further pull returns nothing — the element
sequence is finite for every finite input. -/
theorem claim_C5 (p : Parser) :
    (p.next.1 = none → p.next.2 = p) ∧
    (∀ it, p.next.1 = some it →
      (p.next.2.state.length < p.state.length ∨
        (p.next.2.state = p.state ∧ p.section_ended = false ∧
          p.next.2.section_ended = true))) ∧
    (∀ it, p.next.1 = some it → p.next.2.state = p.state →
      ¬(∃ it₂, p.next.2.next.1 = some it₂ ∧ p.next.2.next.2.state = p.next.2.state ∧
          p.next.2.next.2.section_ended ≠ p.next.2.section_ended)) ∧
    (∀ n, pmeasure p ≤ n → nthPull n p = none) := by
  have part2 : ∀ it, p.next.1 = some it →
      (p.next.2.state.length < p.state.length ∨
        (p.next.2.state = p.state ∧ p.section_ended = false ∧
          p.next.2.section_ended = true)) := by
    intro it h
    rcases next_cases p with ⟨_, _, hn⟩ | ⟨hse, _, hn⟩ | ⟨_, _, _, _, _, _, hlen, _⟩ |
      ⟨_, _, hlen, _⟩
    · rw [hn] at h; simp at h
    · right; rw [hn]; exact ⟨rfl, hse, rfl⟩
    · left; exact hlen
    · left; exact hlen
  refine ⟨next_none_eq p, part2, ?_, fun n hn => nthPull_stops n p hn⟩
  rintro it h hst ⟨it₂, h₂, hst₂, hfl₂⟩
  have hse1 : p.next.2.section_ended = true := by
    rcases part2 it h with hlen | hflip
    · rw [hst] at hlen; exact absurd hlen (lt_irrefl _)
    · exact hflip.2.2
  rcases next_cases p.next.2 with ⟨_, _, hn⟩ | ⟨hse2, _, _⟩ | ⟨_, _, _, _, _, _, hlen2, _⟩ |
    ⟨_, _, hlen2, _⟩
  · rw [hn] at h₂; simp at h₂
  · rw [hse1] at hse2; simp at hse2
  · rw [hst₂] at hlen2; exact absurd hlen2 (lt_irrefl _)
  · rw [hst₂] at hlen2; exact absurd hlen2 (lt_irrefl _)

theorem claim_C5_witness :
    nthPull 13 (Parser.new (List.replicate 6 91)) = none :=
  (claim_C5 (Parser.new (List.replicate 6 91))).2.2.2 13 (by decide)

/-- C6: on a malformed section-header line (first byte `[`, awaiting-section
flag set, the byte before the terminator is not `]`) the parser returns
`Error` carrying the raw line — no trimming even when auto-trim is enabled,
the statement holds for every parser configuration — and the cursor strictly
advances past that line. -/
theorem claim_C6 (p : Parser) (hne : p.state ≠ []) (hhead : p.state.headD 0 = 91)
    (hse : p.section_ended = true) (hcc : p.comment_char ≠ 91)
    (hmal : p.state.getD (find_nl p.state - 1) 0 ≠ 93) :
    p.next.1 = some (Item.Error (p.state.take (find_nl p.state))) ∧
    p.next.2.state.length < p.state.length ∧
    List.IsSuffix p.next.2.state (p.state.drop (find_nl p.state)) := by
  have he := error_step p hne hhead hse hcc hmal
  have hlen0 : 1 ≤ p.state.length := List.length_pos.mpr hne
  have h1 : 1 ≤ find_nl p.state := by
    cases hs : p.state with
    | nil => exact absurd hs hne
    | cons c rest =>
      rw [hs] at hhead
      simp only [List.headD_cons] at hhead
      subst hhead
      rw [find_nl_cons_pos _ _ (by decide)]
      omega
  refine ⟨by rw [he], ?_, ?_⟩
  · rw [he]
    apply skip_ln_length_le'
    simp only [List.length_drop]
    omega
  · rw [he]
    exact skip_ln_state_suffix _ _

theorem claim_C6_witness :
    (⟨0, 59, true, true, [91, 120]⟩ : Parser).next.1 =
        some (Item.Error (([91, 120] : List Nat).take (find_nl [91, 120]))) ∧
      (⟨0, 59, true, true, [91, 120]⟩ : Parser).next.2.state.length <
        ([91, 120] : List Nat).length ∧
      List.IsSuffix (⟨0, 59, true, true, [91, 120]⟩ : Parser).next.2.state
        (([91, 120] : List Nat).drop (find_nl [91, 120])) :=
  claim_C6 _ (by decide) (by decide) (by decide) (by decide) (by decide)

/-- C7: on a property line with no `=` before the terminator, the parser
returns `Property(key, None)` where the key is the whole line up to the
terminator, trimmed exactly when auto-trim is enabled — except that when the
key is empty it returns `Blank` instead. -/
theorem claim_C7 (p : Parser) (hne : p.state ≠ [])
    (h10 : ¬(p.state.headD 0 = 13 ∨ p.state.headD 0 = 10))
    (hcc : p.state.headD 0 ≠ p.comment_char)
    (h91 : p.state.headD 0 ≠ 91)
    (hno : p.state[find_nl_chr p.state 61]? ≠ some 61) :
    p.next.1 = some (if (if p.auto_trim then trim (p.state.take (find_nl_chr p.state 61))
          else p.state.take (find_nl_chr p.state 61)) = []
        then Item.Blank
        else Item.Property (if p.auto_trim then trim (p.state.take (find_nl_chr p.state 61))
          else p.state.take (find_nl_chr p.state 61)) none) := by
  obtain ⟨line, cc, atr, se, st⟩ := p
  cases st with
  | nil => exact absurd rfl hne
  | cons c rest =>
    simp only [List.headD_cons] at h10 hcc h91
    simp only at hno
    simp only [Parser.next]
    rw [if_neg h10, if_neg hcc, if_neg h91, if_pos hno]
    by_cases hkey : (if atr = true then trim ((c :: rest).take (find_nl_chr (c :: rest) 61))
        else (c :: rest).take (find_nl_chr (c :: rest) 61)) = []
    · rw [if_pos hkey, if_pos hkey]
    · rw [if_neg hkey, if_neg hkey]

theorem claim_C7_witness :
    (⟨0, 59, true, false, [32, 120, 32]⟩ : Parser).next.1 =
      some (if (if true then trim (([32, 120, 32] : List Nat).take
            (find_nl_chr [32, 120, 32] 61))
          else ([32, 120, 32] : List Nat).take (find_nl_chr [32, 120, 32] 61)) = []
        then Item.Blank
        else Item.Property (if true then trim (([32, 120, 32] : List Nat).take
            (find_nl_chr [32, 120, 32] 61))
          else ([32, 120, 32] : List Nat).take (find_nl_chr [32, 120, 32] 61)) none) :=
  claim_C7 _ (by decide) (by decide) (by decide) (by decide) (by decide)

/-- C10: after the parser yields `Error` for a malformed `[` line the flag is
false, just as after a `Section`; from a fresh parser every `Section` or
`Error` element is immediately preceded by its own `SectionEnd` (the first
element can never be `Section` or `Error`); and for every input the number of
`SectionEnd` elements equals sections plus errors plus one. -/
theorem claim_C10 :
    (∀ p : Parser, p.state ≠ [] → p.state.headD 0 = 91 → p.section_ended = true →
      p.comment_char ≠ 91 → p.state.getD (find_nl p.state - 1) 0 ≠ 93 →
      p.next.1 = some (Item.Error (p.state.take (find_nl p.state))) ∧
      p.next.2.section_ended = false) ∧
    (∀ s : List Nat, ∀ j, 0 < j → j < (items (Parser.new s)).length →
      (isSection ((items (Parser.new s)).getD j Item.Blank) = true ∨
        isError ((items (Parser.new s)).getD j Item.Blank) = true) →
      (items (Parser.new s)).getD (j - 1) Item.Blank = Item.SectionEnd) ∧
    (∀ s : List Nat, 0 < (items (Parser.new s)).length →
      ¬(isSection ((items (Parser.new s)).getD 0 Item.Blank) = true ∨
        isError ((items (Parser.new s)).getD 0 Item.Blank) = true)) ∧
    (∀ s : List Nat, (items (Parser.new s)).countP isSectionEnd =
      (items (Parser.new s)).countP isSection +
        (items (Parser.new s)).countP isError + 1) := by
  refine ⟨?_, ?_, ?_, ?_⟩
  · intro p hne hhead hse hcc hmal
    have he := error_step p hne hhead hse hcc hmal
    exact ⟨by rw [he], by rw [he]; exact skip_ln_section_ended' _ _ _ rfl⟩
  · intro s j hj0 hj hsec
    exact preceded_aux (pmeasure (Parser.new s)) (Parser.new s) (le_refl _)
      (reachInv_new s) j hj0 hj hsec
  · intro s h0 hsec
    obtain ⟨a, ha⟩ : ∃ a, (Parser.new s).next.1 = some a := by
      cases hq : (Parser.new s).next.1 with
      | none => rw [items_none _ hq] at h0; simp at h0
      | some a => exact ⟨a, rfl⟩
    rw [items_some _ a ha] at hsec
    simp only [List.getD_cons_zero] at hsec
    have hfl := (head_sec_err _ a ha hsec).1
    simp [Parser.new] at hfl
  · intro s
    have h := items_count (Parser.new s)
    simpa [Parser.new] using h

theorem claim_C10_witness :
    ((Parser.new [91]).next.2.next.1 = some (Item.Error (([91] : List Nat).take
        (find_nl [91]))) ∧
      (Parser.new [91]).next.2.next.2.section_ended = false) ∧
    (items (Parser.new [91])).getD (1 - 1) Item.Blank = Item.SectionEnd :=
  ⟨claim_C10.1 _ (by decide) (by decide) (by decide) (by decide) (by decide),
   claim_C10.2.1 [91] 1 (by decide) (by decide) (by decide)⟩

/-- C1 counterexample: on the input consisting of the single byte `[`, the
parser yields `SectionEnd, Error, SectionEnd` — two `SectionEnd` elements but
zero `Section` elements, so the count of `SectionEnd` is not sections plus
one. -/
theorem claim_C1_counterexample :
    ¬((items (Parser.new [91])).countP isSectionEnd =
      (items (Parser.new [91])).countP isSection + 1) := by
  decide

/-- C1 as amended: for every input, the number of `SectionEnd` elements equals
the number of `Section` elements plus the number of `Error` elements plus one
(each malformed bracket line also consumes a section flush). -/
theorem claim_C1_amended (s : List Nat) :
    (items (Parser.new s)).countP isSectionEnd =
      (items (Parser.new s)).countP isSection +
        (items (Parser.new s)).countP isError + 1 := by
  have h := items_count (Parser.new s)
  simpa [Parser.new] using h

/-- C2 counterexample: the full sequence for the input `"[foo]\n["` is not the
four-element sequence of the claim — it starts with an initial `SectionEnd`. -/
theorem claim_C2_counterexample :
    items (Parser.new [91, 102, 111, 111, 93, 10, 91]) ≠
      [Item.Section [102, 111, 111], Item.SectionEnd, Item.Error [91],
        Item.SectionEnd] := by
  decide

/-- C2 as amended: pulling the parser built on `"[foo]\n["` (default
configuration) to exhaustion yields exactly `SectionEnd, Section("foo"),
SectionEnd, Error("["), SectionEnd`, in that order. -/
theorem claim_C2_amended :
    items (Parser.new [91, 102, 111, 111, 93, 10, 91]) =
      [Item.SectionEnd, Item.Section [102, 111, 111], Item.SectionEnd,
        Item.Error [91], Item.SectionEnd] := by
  decide

/-! ### Byte-lane decomposition of machine-word bit operations -/

theorem byte_lt_pow (a : Nat) (ha : a < 256) : a < 2 ^ 8 := by
  simpa using ha

theorem chunk_testBit (a x i : Nat) (ha : a < 256) :
    (a + 256 * x).testBit i = if i < 8 then a.testBit i else x.testBit (i - 8) := by
  have h : a + 256 * x = 2 ^ 8 * x + a := by ring
  rw [h]
  exact Nat.testBit_mul_pow_two_add x (byte_lt_pow a ha) i

theorem byte_land_lt (a b : Nat) (hb : b < 256) : Nat.land a b < 256 :=
  lt_of_le_of_lt Nat.and_le_right hb

theorem byte_lor_lt (a b : Nat) (ha : a < 256) (hb : b < 256) : Nat.lor a b < 256 := by
  simpa using Nat.or_lt_two_pow (byte_lt_pow a ha) (byte_lt_pow b hb)

theorem byte_xor_lt (a b : Nat) (ha : a < 256) (hb : b < 256) : Nat.xor a b < 256 := by
  simpa using Nat.xor_lt_two_pow (byte_lt_pow a ha) (byte_lt_pow b hb)

theorem chunk_land (a b x y : Nat) (ha : a < 256) (hb : b < 256) :
    Nat.land (a + 256 * x) (b + 256 * y) = Nat.land a b + 256 * Nat.land x y := by
  apply Nat.eq_of_testBit_eq
  intro i
  show ((a + 256 * x) &&& (b + 256 * y)).testBit i =
    ((a &&& b) + 256 * (x &&& y)).testBit i
  rw [Nat.testBit_and, chunk_testBit a x i ha, chunk_testBit b y i hb,
    chunk_testBit (a &&& b) (x &&& y) i (byte_land_lt a b hb)]
  by_cases h : i < 8 <;> simp [h, Nat.testBit_and]

theorem chunk_lor (a b x y : Nat) (ha : a < 256) (hb : b < 256) :
    Nat.lor (a + 256 * x) (b + 256 * y) = Nat.lor a b + 256 * Nat.lor x y := by
  apply Nat.eq_of_testBit_eq
  intro i
  show ((a + 256 * x) ||| (b + 256 * y)).testBit i =
    ((a ||| b) + 256 * (x ||| y)).testBit i
  rw [Nat.testBit_or, chunk_testBit a x i ha, chunk_testBit b y i hb,
    chunk_testBit (a ||| b) (x ||| y) i (byte_lor_lt a b ha hb)]
  by_cases h : i < 8 <;> simp [h, Nat.testBit_or]

theorem chunk_xor (a b x y : Nat) (ha : a < 256) (hb : b < 256) :
    Nat.xor (a + 256 * x) (b + 256 * y) = Nat.xor a b + 256 * Nat.xor x y := by
  apply Nat.eq_of_testBit_eq
  intro i
  show ((a + 256 * x) ^^^ (b + 256 * y)).testBit i =
    ((a ^^^ b) + 256 * (x ^^^ y)).testBit i
  rw [Nat.testBit_xor, chunk_testBit a x i ha, chunk_testBit b y i hb,
    chunk_testBit (a ^^^ b) (x ^^^ y) i (byte_xor_lt a b ha hb)]
  by_cases h : i < 8 <;> simp [h, Nat.testBit_xor]

theorem readLE_lt (bs : List Nat) (h : ∀ b ∈ bs, b < 256) :
    readLE bs < 2 ^ (8 * bs.length) := by
  induction bs with
  | nil => simp [readLE]
  | cons b t ih =>
    have hb : b < 256 := h b (List.mem_cons_self b t)
    have ih' := ih fun x hx => h x (List.mem_cons_of_mem _ hx)
    have hp : (2 : Nat) ^ (8 * (t.length + 1)) = 256 * 2 ^ (8 * t.length) := by
      rw [Nat.mul_add, pow_add]
      norm_num
      ring
    simp only [readLE, List.length_cons, hp]
    omega

theorem pow8_sub_one (L : Nat) :
    (2 : Nat) ^ (8 * (L + 1)) - 1 = 255 + 256 * (2 ^ (8 * L) - 1) := by
  have hp : (2 : Nat) ^ (8 * (L + 1)) = 256 * 2 ^ (8 * L) := by
    rw [Nat.mul_add, pow_add]
    norm_num
    ring
  have h1 : 1 ≤ (2 : Nat) ^ (8 * L) := Nat.one_le_two_pow
  omega

/-- The per-lane content of the SWAR `cmpeq` bit trick, checked exhaustively
over a byte. -/
theorem lane_eq (c b : Nat) (hc : c < 256) (hb : b < 256) :
    Nat.land (Nat.land (Nat.xor (Nat.xor c b) 255) 0x7f + 1)
      (Nat.land (Nat.xor (Nat.xor c b) 255) 0x80) = if b = c then 128 else 0 := by
  have hx : Nat.xor c b < 256 := byte_xor_lt c b hc hb
  have key : ∀ nb, nb < 256 →
      Nat.land (Nat.land (Nat.xor nb 255) 0x7f + 1) (Nat.land (Nat.xor nb 255) 0x80) =
        if nb = 0 then 128 else 0 := by decide
  rw [key (Nat.xor c b) hx]
  by_cases hbc : b = c
  · subst hbc
    have hxx : Nat.xor b b = 0 := Nat.xor_self b
    rw [hxx]
    simp
  · rw [if_neg (show ¬Nat.xor c b = 0 from fun h => hbc (Nat.xor_eq_zero.mp h).symm),
      if_neg hbc]

/-- The SWAR `cmpeq` word computation, lane by lane: against a broadcast byte
`c`, it produces `0x80` exactly in the lanes equal to `c`. -/
theorem cmpeq_core (c : Nat) (hc : c < 256) : ∀ bs : List Nat, (∀ b ∈ bs, b < 256) →
    Nat.land
      (Nat.land (Nat.xor (Nat.xor (readLE (List.replicate bs.length c)) (readLE bs))
          (2 ^ (8 * bs.length) - 1))
        (readLE (List.replicate bs.length 0x7f)) + readLE (List.replicate bs.length 1))
      (Nat.land (Nat.xor (Nat.xor (readLE (List.replicate bs.length c)) (readLE bs))
          (2 ^ (8 * bs.length) - 1))
        (readLE (List.replicate bs.length 0x80)))
    = readLE (bs.map fun b => if b = c then 128 else 0) := by
  intro bs
  induction bs with
  | nil =>
    intro _
    simp [readLE]
    decide
  | cons b t ih =>
    intro hb
    have hb0 : b < 256 := hb b (List.mem_cons_self b t)
    have hbt : ∀ x ∈ t, x < 256 := fun x hx => hb x (List.mem_cons_of_mem _ hx)
    have IH := ih hbt
    simp only [List.length_cons, List.replicate_succ, readLE, List.map_cons, pow8_sub_one]
    rw [chunk_xor c b _ _ hc hb0]
    rw [chunk_xor (Nat.xor c b) 255 _ _ (byte_xor_lt c b hc hb0) (by norm_num)]
    have hnb : Nat.xor (Nat.xor c b) 255 < 256 :=
      byte_xor_lt _ 255 (byte_xor_lt c b hc hb0) (by norm_num)
    rw [chunk_land _ 0x7f _ _ hnb (by norm_num)]
    rw [chunk_land _ 0x80 _ _ hnb (by norm_num)]
    have hassoc :
        Nat.land (Nat.xor (Nat.xor c b) 255) 0x7f +
            256 * Nat.land (Nat.xor (Nat.xor (readLE (List.replicate t.length c)) (readLE t))
              (2 ^ (8 * t.length) - 1)) (readLE (List.replicate t.length 0x7f)) +
            (1 + 256 * readLE (List.replicate t.length 1)) =
          (Nat.land (Nat.xor (Nat.xor c b) 255) 0x7f + 1) +
            256 * (Nat.land (Nat.xor (Nat.xor (readLE (List.replicate t.length c)) (readLE t))
              (2 ^ (8 * t.length) - 1)) (readLE (List.replicate t.length 0x7f)) +
              readLE (List.replicate t.length 1)) := by
      ring
    rw [hassoc]
    rw [chunk_land _ _ _ _
      (by
        have := byte_land_lt (Nat.xor (Nat.xor c b) 255) 0x7f (by norm_num)
        have h2 : Nat.land (Nat.xor (Nat.xor c b) 255) 0x7f ≤ 0x7f := Nat.and_le_right
        omega)
      (byte_land_lt _ 0x80 (by norm_num))]
    rw [lane_eq c b hc hb0, IH]

theorem mul_ones8 (c : Nat) : c * 0x0101010101010101 = readLE (List.replicate 8 c) := by
  show c * 0x0101010101010101 = readLE [c, c, c, c, c, c, c, c]
  simp [readLE]
  ring

theorem mul_ones4 (c : Nat) : c * 0x01010101 = readLE (List.replicate 4 c) := by
  show c * 0x01010101 = readLE [c, c, c, c]
  simp [readLE]
  ring

/-- `cmpeq` of `src/parse/swar64.rs`, evaluated lane-wise on an 8-byte chunk. -/
theorem cmpeq64_eval (c : Nat) (hc : c < 256) (bs : List Nat) (h8 : bs.length = 8)
    (hb : ∀ b ∈ bs, b < 256) :
    cmpeq64 (c * 0x0101010101010101) (readLE bs) =
      readLE (bs.map fun b => if b = c then 128 else 0) := by
  have hcore := cmpeq_core c hc bs hb
  rw [h8] at hcore
  show Nat.land
      ((Nat.land (Nat.xor (Nat.xor (c * 0x0101010101010101) (readLE bs)) (2 ^ 64 - 1))
          0x7f7f7f7f7f7f7f7f + 0x0101010101010101) % 2 ^ 64)
      (Nat.land (Nat.xor (Nat.xor (c * 0x0101010101010101) (readLE bs)) (2 ^ 64 - 1))
        0x8080808080808080) = _
  rw [mul_ones8 c]
  rw [show (0x7f7f7f7f7f7f7f7f : Nat) = readLE (List.replicate 8 0x7f) from by rfl]
  rw [show (0x0101010101010101 : Nat) = readLE (List.replicate 8 1) from by rfl]
  rw [show (0x8080808080808080 : Nat) = readLE (List.replicate 8 0x80) from by rfl]
  rw [show (2 : Nat) ^ 64 = 2 ^ (8 * 8) from by norm_num]
  have hso : Nat.land (Nat.xor (Nat.xor (readLE (List.replicate 8 c)) (readLE bs))
        (2 ^ (8 * 8) - 1)) (readLE (List.replicate 8 0x7f)) +
      readLE (List.replicate 8 1) < 2 ^ (8 * 8) := by
    have h1 : Nat.land (Nat.xor (Nat.xor (readLE (List.replicate 8 c)) (readLE bs))
        (2 ^ (8 * 8) - 1)) (readLE (List.replicate 8 0x7f)) ≤
        readLE (List.replicate 8 0x7f) := Nat.and_le_right
    have h2 : readLE (List.replicate 8 0x7f) + readLE (List.replicate 8 1) <
        2 ^ (8 * 8) := by decide
    omega
  rw [Nat.mod_eq_of_lt hso]
  exact hcore

/-- `cmpeq` of `src/parse/swar32.rs`, evaluated lane-wise on a 4-byte chunk. -/
theorem cmpeq32_eval (c : Nat) (hc : c < 256) (bs : List Nat) (h4 : bs.length = 4)
    (hb : ∀ b ∈ bs, b < 256) :
    cmpeq32 (c * 0x01010101) (readLE bs) =
      readLE (bs.map fun b => if b = c then 128 else 0) := by
  have hcore := cmpeq_core c hc bs hb
  rw [h4] at hcore
  show Nat.land
      ((Nat.land (Nat.xor (Nat.xor (c * 0x01010101) (readLE bs)) (2 ^ 32 - 1))
          0x7f7f7f7f + 0x01010101) % 2 ^ 32)
      (Nat.land (Nat.xor (Nat.xor (c * 0x01010101) (readLE bs)) (2 ^ 32 - 1))
        0x80808080) = _
  rw [mul_ones4 c]
  rw [show (0x7f7f7f7f : Nat) = readLE (List.replicate 4 0x7f) from by rfl]
  rw [show (0x01010101 : Nat) = readLE (List.replicate 4 1) from by rfl]
  rw [show (0x80808080 : Nat) = readLE (List.replicate 4 0x80) from by rfl]
  rw [show (2 : Nat) ^ 32 = 2 ^ (8 * 4) from by norm_num]
  have hso : Nat.land (Nat.xor (Nat.xor (readLE (List.replicate 4 c)) (readLE bs))
        (2 ^ (8 * 4) - 1)) (readLE (List.replicate 4 0x7f)) +
      readLE (List.replicate 4 1) < 2 ^ (8 * 4) := by
    have h1 : Nat.land (Nat.xor (Nat.xor (readLE (List.replicate 4 c)) (readLE bs))
        (2 ^ (8 * 4) - 1)) (readLE (List.replicate 4 0x7f)) ≤
        readLE (List.replicate 4 0x7f) := Nat.and_le_right
    have h2 : readLE (List.replicate 4 0x7f) + readLE (List.replicate 4 1) <
        2 ^ (8 * 4) := by decide
    omega
  rw [Nat.mod_eq_of_lt hso]
  exact hcore

theorem lor_readLE_maps (f g : Nat → Nat) (hf : ∀ b, f b < 256) (hg : ∀ b, g b < 256)
    (bs : List Nat) :
    Nat.lor (readLE (bs.map f)) (readLE (bs.map g)) =
      readLE (bs.map fun b => Nat.lor (f b) (g b)) := by
  induction bs with
  | nil =>
    simp [readLE]
    decide
  | cons b t ih =>
    simp only [List.map_cons, readLE]
    rw [chunk_lor (f b) (g b) _ _ (hf b) (hg b), ih]

theorem lor_lane_128 (A B : Prop) [Decidable A] [Decidable B] :
    Nat.lor (if A then 128 else 0) (if B then 128 else 0) = if A ∨ B then 128 else 0 := by
  by_cases hA : A <;> by_cases hB : B <;> simp [hA, hB] <;> decide

theorem lor_lane_255 (A B : Prop) [Decidable A] [Decidable B] :
    Nat.lor (if A then 255 else 0) (if B then 255 else 0) = if A ∨ B then 255 else 0 := by
  by_cases hA : A <;> by_cases hB : B <;> simp [hA, hB] <;> decide

theorem readLE_map_zero (P : Nat → Prop) [DecidablePred P] (bs : List Nat)
    (h : ∀ b ∈ bs, ¬ P b) : readLE (bs.map fun b => if P b then 128 else 0) = 0 := by
  induction bs with
  | nil => simp [readLE]
  | cons b t ih =>
    simp only [List.map_cons, readLE]
    rw [if_neg (h b (List.mem_cons_self b t)),
      ih fun x hx => h x (List.mem_cons_of_mem _ hx)]

/-- A SWAR mask whose first matching lane is `k` is `2 ^ (8 k + 7)` times an
odd number. -/
theorem mask_decompose (P : Nat → Prop) [DecidablePred P] : ∀ (bs : List Nat) (k : Nat),
    k < bs.length → P (bs.getD k 0) → (∀ i < k, ¬ P (bs.getD i 0)) →
    ∃ m, m % 2 = 1 ∧
      readLE (bs.map fun b => if P b then 128 else 0) = 2 ^ (8 * k + 7) * m := by
  intro bs
  induction bs with
  | nil => intro k hk; simp at hk
  | cons b t ih =>
    intro k hk hPk hbefore
    cases k with
    | zero =>
      simp only [List.getD_cons_zero] at hPk
      refine ⟨1 + 2 * readLE (t.map fun b => if P b then 128 else 0), by omega, ?_⟩
      simp only [List.map_cons, readLE, if_pos hPk]
      ring
    | succ j =>
      simp only [List.getD_cons_succ] at hPk
      have hb0 : ¬ P b := by
        have := hbefore 0 (by omega)
        simpa using this
      obtain ⟨m, hm, hval⟩ := ih j (by simp only [List.length_cons] at hk; omega) hPk
        fun i hi => by simpa using hbefore (i + 1) (by omega)
      refine ⟨m, hm, ?_⟩
      simp only [List.map_cons, readLE, if_neg hb0, hval]
      have hp : (2 : Nat) ^ (8 * (j + 1) + 7) = 256 * 2 ^ (8 * j + 7) := by
        have : 8 * (j + 1) + 7 = (8 * j + 7) + 8 := by ring
        rw [this, pow_add]
        ring_nf
      rw [hp]
      ring

theorem movemask_zero (P : Nat → Prop) [DecidablePred P] (bs : List Nat)
    (h : ∀ b ∈ bs, ¬ P b) : movemask_epi8 (bs.map fun b => if P b then 255 else 0) = 0 := by
  induction bs with
  | nil => rfl
  | cons b t ih =>
    simp only [List.map_cons, movemask_epi8]
    have hb0 : ¬ P b := h b (List.mem_cons_self b t)
    simp [hb0, ih fun x hx => h x (List.mem_cons_of_mem _ hx)]

/-- A SIMD movemask whose first matching lane is `k` is `2 ^ k` times an odd
number. -/
theorem movemask_decompose (P : Nat → Prop) [DecidablePred P] : ∀ (bs : List Nat) (k : Nat),
    k < bs.length → P (bs.getD k 0) → (∀ i < k, ¬ P (bs.getD i 0)) →
    ∃ m, m % 2 = 1 ∧
      movemask_epi8 (bs.map fun b => if P b then 255 else 0) = 2 ^ k * m := by
  intro bs
  induction bs with
  | nil => intro k hk; simp at hk
  | cons b t ih =>
    intro k hk hPk hbefore
    cases k with
    | zero =>
      simp only [List.getD_cons_zero] at hPk
      refine ⟨1 + 2 * movemask_epi8 (t.map fun b => if P b then 255 else 0), by omega, ?_⟩
      simp only [List.map_cons, movemask_epi8, if_pos hPk]
      rw [if_pos (by decide : Nat.testBit 255 7 = true)]
      ring
    | succ j =>
      simp only [List.getD_cons_succ] at hPk
      have hb0 : ¬ P b := by
        have := hbefore 0 (by omega)
        simpa using this
      obtain ⟨m, hm, hval⟩ := ih j (by simp only [List.length_cons] at hk; omega) hPk
        fun i hi => by simpa using hbefore (i + 1) (by omega)
      refine ⟨m, hm, ?_⟩
      simp only [List.map_cons, movemask_epi8]
      simp [hb0, hval]
      ring

theorem ctzAux_spec : ∀ (j fuel m : Nat), m % 2 = 1 → j < fuel →
    ctzAux fuel (2 ^ j * m) = j := by
  intro j
  induction j with
  | zero =>
    intro fuel m hm hj
    cases fuel with
    | zero => omega
    | succ f => simp [ctzAux, hm]
  | succ j ih =>
    intro fuel m hm hj
    cases fuel with
    | zero => omega
    | succ f =>
      have he : 2 ^ (j + 1) * m = 2 * (2 ^ j * m) := by ring
      simp only [ctzAux]
      rw [if_neg (by omega : ¬(2 ^ (j + 1) * m) % 2 = 1)]
      have hdiv : 2 ^ (j + 1) * m / 2 = 2 ^ j * m := by omega
      rw [hdiv, ih f m hm (by omega)]

theorem tz_pow_mul (w j m : Nat) (hm : m % 2 = 1) (hj : j < w) :
    trailing_zeros w (2 ^ j * m) = j :=
  ctzAux_spec j w m hm hj

theorem shiftr3 (k : Nat) : (8 * k + 7) >>> 3 = k := by
  rw [Nat.shiftRight_eq_div_pow]
  have h8 : (2 : Nat) ^ 3 = 8 := by norm_num
  rw [h8]
  omega

theorem pow_mul_odd_ne_zero (j m : Nat) (hm : m % 2 = 1) : 2 ^ j * m ≠ 0 := by
  have h1 : 0 < (2 : Nat) ^ j := Nat.pos_pow_of_pos j (by norm_num)
  have h2 : 0 < m := by omega
  positivity

theorem find_nl_append_lt (as rest : List Nat) (h : find_nl as < as.length) :
    find_nl (as ++ rest) = find_nl as := by
  induction as with
  | nil => simp [find_nl] at h
  | cons a t ih =>
    by_cases ha : a = 10 ∨ a = 13
    · simp [find_nl, ha]
    · simp only [find_nl, if_neg ha, List.length_cons] at h
      simp only [List.cons_append, find_nl, if_neg ha, List.append_eq]
      rw [ih (by omega)]

theorem find_nl_append_ge (as rest : List Nat) (h : find_nl as = as.length) :
    find_nl (as ++ rest) = as.length + find_nl rest := by
  induction as with
  | nil => simp [find_nl]
  | cons a t ih =>
    by_cases ha : a = 10 ∨ a = 13
    · simp [find_nl, ha] at h
    · simp only [find_nl, if_neg ha, List.length_cons] at h
      simp only [List.cons_append, find_nl, if_neg ha, List.length_cons, List.append_eq]
      rw [ih (by omega)]
      ring

theorem find_nl_chr_append_lt (as rest : List Nat) (chr : Nat)
    (h : find_nl_chr as chr < as.length) :
    find_nl_chr (as ++ rest) chr = find_nl_chr as chr := by
  induction as with
  | nil => simp [find_nl_chr] at h
  | cons a t ih =>
    by_cases ha : a = 10 ∨ a = 13 ∨ a = chr
    · simp [find_nl_chr, ha]
    · simp only [find_nl_chr, if_neg ha, List.length_cons] at h
      simp only [List.cons_append, find_nl_chr, if_neg ha, List.append_eq]
      rw [ih (by omega)]

theorem find_nl_chr_append_ge (as rest : List Nat) (chr : Nat)
    (h : find_nl_chr as chr = as.length) :
    find_nl_chr (as ++ rest) chr = as.length + find_nl_chr rest chr := by
  induction as with
  | nil => simp [find_nl_chr]
  | cons a t ih =>
    by_cases ha : a = 10 ∨ a = 13 ∨ a = chr
    · simp [find_nl_chr, ha] at h
    · simp only [find_nl_chr, if_neg ha, List.length_cons] at h
      simp only [List.cons_append, find_nl_chr, if_neg ha, List.length_cons, List.append_eq]
      rw [ih (by omega)]
      ring

theorem all_getD (P : Nat → Prop) : ∀ (bs : List Nat),
    (∀ j, j < bs.length → P (bs.getD j 0)) → ∀ b ∈ bs, P b := by
  intro bs
  induction bs with
  | nil => intro _ b hb; simp at hb
  | cons a t ih =>
    intro h b hb
    rcases List.mem_cons.mp hb with rfl | hbt
    · have := h 0 (by simp)
      simpa using this
    · exact ih (fun j hj => by
        have := h (j + 1) (by simp only [List.length_cons]; omega)
        simpa using this) b hbt

theorem zipWith_rep_left (f : Nat → Nat → Nat) (c : Nat) (bs : List Nat) :
    List.zipWith f (List.replicate bs.length c) bs = bs.map (f c) := by
  induction bs with
  | nil => rfl
  | cons b t ih => simp only [List.length_cons, List.replicate_succ, List.zipWith_cons_cons,
      List.map_cons, ih]

theorem zipWith_map_same (F : Nat → Nat → Nat) (g h : Nat → Nat) (l : List Nat) :
    List.zipWith F (l.map g) (l.map h) = l.map fun x => F (g x) (h x) := by
  induction l with
  | nil => rfl
  | cons b t ih => simp only [List.map_cons, List.zipWith_cons_cons, ih]

theorem cmpeq_epi8_rep (c : Nat) (bs : List Nat) :
    cmpeq_epi8 (List.replicate bs.length c) bs = bs.map fun b => if c = b then 255 else 0 :=
  zipWith_rep_left _ c bs

/-- The or of the two `cmpeq64` masks of the SWAR `find_nl`, lane by lane. -/
theorem swar64_mask_canon (bs : List Nat) (h8 : bs.length = 8) (hb : ∀ b ∈ bs, b < 256) :
    Nat.lor (cmpeq64 (10 * 0x0101010101010101) (readLE bs))
      (cmpeq64 (13 * 0x0101010101010101) (readLE bs)) =
    readLE (bs.map fun b => if b = 10 ∨ b = 13 then 128 else 0) := by
  rw [cmpeq64_eval 10 (by norm_num) bs h8 hb, cmpeq64_eval 13 (by norm_num) bs h8 hb,
    lor_readLE_maps _ _ (fun b => by split <;> norm_num) (fun b => by split <;> norm_num) bs]
  exact congrArg readLE (List.map_congr_left fun a _ => lor_lane_128 _ _)

/-- The or of the three `cmpeq64` masks of the SWAR `find_nl_chr`, lane by lane. -/
theorem swar64_mask_chr_canon (bs : List Nat) (chr : Nat) (hchr : chr < 256)
    (h8 : bs.length = 8) (hb : ∀ b ∈ bs, b < 256) :
    Nat.lor (Nat.lor (cmpeq64 (10 * 0x0101010101010101) (readLE bs))
        (cmpeq64 (13 * 0x0101010101010101) (readLE bs)))
      (cmpeq64 (chr * 0x0101010101010101) (readLE bs)) =
    readLE (bs.map fun b => if b = 10 ∨ b = 13 ∨ b = chr then 128 else 0) := by
  rw [cmpeq64_eval 10 (by norm_num) bs h8 hb, cmpeq64_eval 13 (by norm_num) bs h8 hb,
    cmpeq64_eval chr hchr bs h8 hb,
    lor_readLE_maps _ _ (fun b => by split <;> norm_num) (fun b => by split <;> norm_num) bs]
  rw [show (List.map (fun b => Nat.lor (if b = 10 then 128 else 0) (if b = 13 then 128 else 0))
      bs) = List.map (fun b => if b = 10 ∨ b = 13 then 128 else 0) bs from
    List.map_congr_left fun a _ => lor_lane_128 _ _]
  rw [lor_readLE_maps _ _ (fun b => by split <;> norm_num) (fun b => by split <;> norm_num) bs]
  refine congrArg readLE (List.map_congr_left fun a _ => ?_)
  rw [lor_lane_128]
  exact if_congr (or_assoc) rfl rfl

/-- The or of the two `cmpeq32` masks of the 32-bit SWAR `find_nl`. -/
theorem swar32_mask_canon (bs : List Nat) (h4 : bs.length = 4) (hb : ∀ b ∈ bs, b < 256) :
    Nat.lor (cmpeq32 (10 * 0x01010101) (readLE bs))
      (cmpeq32 (13 * 0x01010101) (readLE bs)) =
    readLE (bs.map fun b => if b = 10 ∨ b = 13 then 128 else 0) := by
  rw [cmpeq32_eval 10 (by norm_num) bs h4 hb, cmpeq32_eval 13 (by norm_num) bs h4 hb,
    lor_readLE_maps _ _ (fun b => by split <;> norm_num) (fun b => by split <;> norm_num) bs]
  exact congrArg readLE (List.map_congr_left fun a _ => lor_lane_128 _ _)

/-- The or of the three `cmpeq32` masks of the 32-bit SWAR `find_nl_chr`. -/
theorem swar32_mask_chr_canon (bs : List Nat) (chr : Nat) (hchr : chr < 256)
    (h4 : bs.length = 4) (hb : ∀ b ∈ bs, b < 256) :
    Nat.lor (Nat.lor (cmpeq32 (10 * 0x01010101) (readLE bs))
        (cmpeq32 (13 * 0x01010101) (readLE bs)))
      (cmpeq32 (chr * 0x01010101) (readLE bs)) =
    readLE (bs.map fun b => if b = 10 ∨ b = 13 ∨ b = chr then 128 else 0) := by
  rw [cmpeq32_eval 10 (by norm_num) bs h4 hb, cmpeq32_eval 13 (by norm_num) bs h4 hb,
    cmpeq32_eval chr hchr bs h4 hb,
    lor_readLE_maps _ _ (fun b => by split <;> norm_num) (fun b => by split <;> norm_num) bs]
  rw [show (List.map (fun b => Nat.lor (if b = 10 then 128 else 0) (if b = 13 then 128 else 0))
      bs) = List.map (fun b => if b = 10 ∨ b = 13 then 128 else 0) bs from
    List.map_congr_left fun a _ => lor_lane_128 _ _]
  rw [lor_readLE_maps _ _ (fun b => by split <;> norm_num) (fun b => by split <;> norm_num) bs]
  refine congrArg readLE (List.map_congr_left fun a _ => ?_)
  rw [lor_lane_128]
  exact if_congr (or_assoc) rfl rfl

/-- The two-way SIMD compare-or mask, lane by lane. -/
theorem simd_mask_canon (bs : List Nat) (n : Nat) (hn : List.replicate n (10 : Nat) =
      List.replicate bs.length 10 ∧ List.replicate n (13 : Nat) = List.replicate bs.length 13) :
    or_epi8 (cmpeq_epi8 (List.replicate n 10) bs) (cmpeq_epi8 (List.replicate n 13) bs) =
    bs.map fun b => if b = 10 ∨ b = 13 then 255 else 0 := by
  rw [hn.1, hn.2, cmpeq_epi8_rep, cmpeq_epi8_rep]
  unfold or_epi8
  rw [zipWith_map_same]
  refine List.map_congr_left fun a _ => ?_
  rw [lor_lane_255]
  exact if_congr (or_congr eq_comm eq_comm) rfl rfl

/-- The three-way SIMD compare-or mask, lane by lane. -/
theorem simd_mask_chr_canon (bs : List Nat) (chr : Nat) (n : Nat)
    (hn : List.replicate n (10 : Nat) = List.replicate bs.length 10 ∧
      List.replicate n (13 : Nat) = List.replicate bs.length 13 ∧
      List.replicate n chr = List.replicate bs.length chr) :
    or_epi8 (or_epi8 (cmpeq_epi8 (List.replicate n 10) bs) (cmpeq_epi8 (List.replicate n 13) bs))
      (cmpeq_epi8 (List.replicate n chr) bs) =
    bs.map fun b => if b = 10 ∨ b = 13 ∨ b = chr then 255 else 0 := by
  rw [hn.1, hn.2.1, hn.2.2, cmpeq_epi8_rep, cmpeq_epi8_rep, cmpeq_epi8_rep]
  unfold or_epi8
  rw [zipWith_map_same]
  rw [show (List.map (fun x => Nat.lor (if (10 : Nat) = x then 255 else 0)
      (if (13 : Nat) = x then 255 else 0)) bs) =
      List.map (fun b => if b = 10 ∨ b = 13 then 255 else 0) bs from
    List.map_congr_left fun a _ => by
      rw [lor_lane_255]
      exact if_congr (or_congr eq_comm eq_comm) rfl rfl]
  rw [zipWith_map_same]
  refine List.map_congr_left fun a _ => ?_
  rw [lor_lane_255]
  refine if_congr ?_ rfl rfl
  rw [or_assoc]
  exact or_congr Iff.rfl (or_congr Iff.rfl eq_comm)

/-! ### From masks to scan indices -/

theorem swar_hit (bs rest : List Nat) (w : Nat) (hw : 8 * bs.length ≤ w)
    (hmask : readLE (bs.map fun b => if b = 10 ∨ b = 13 then 128 else 0) ≠ 0) :
    trailing_zeros w (readLE (bs.map fun b => if b = 10 ∨ b = 13 then 128 else 0)) >>> 3 =
      find_nl (bs ++ rest) := by
  have hlt : find_nl bs < bs.length := by
    by_contra hge
    have heq : ∀ j, j < bs.length → ¬((bs.getD j 0) = 10 ∨ (bs.getD j 0) = 13) := by
      intro j hj
      exact find_nl_before bs j (by have := find_nl_le bs; omega)
    exact hmask (readLE_map_zero _ bs (all_getD _ bs heq))
  obtain ⟨m, hm, hval⟩ := mask_decompose (fun b => b = 10 ∨ b = 13) bs (find_nl bs) hlt
    (find_nl_hit bs hlt) fun i hi => find_nl_before bs i hi
  rw [hval, tz_pow_mul w _ m hm (by omega), shiftr3, find_nl_append_lt bs rest hlt]

theorem swar_miss (bs : List Nat)
    (hmask : readLE (bs.map fun b => if b = 10 ∨ b = 13 then 128 else 0) = 0) :
    find_nl bs = bs.length := by
  by_contra h
  have hlt : find_nl bs < bs.length := lt_of_le_of_ne (find_nl_le bs) h
  obtain ⟨m, hm, hval⟩ := mask_decompose (fun b => b = 10 ∨ b = 13) bs (find_nl bs) hlt
    (find_nl_hit bs hlt) fun i hi => find_nl_before bs i hi
  rw [hval] at hmask
  exact pow_mul_odd_ne_zero _ m hm hmask

theorem swar_hit_chr (bs rest : List Nat) (chr w : Nat) (hw : 8 * bs.length ≤ w)
    (hmask : readLE (bs.map fun b => if b = 10 ∨ b = 13 ∨ b = chr then 128 else 0) ≠ 0) :
    trailing_zeros w
        (readLE (bs.map fun b => if b = 10 ∨ b = 13 ∨ b = chr then 128 else 0)) >>> 3 =
      find_nl_chr (bs ++ rest) chr := by
  have hlt : find_nl_chr bs chr < bs.length := by
    by_contra hge
    have heq : ∀ j, j < bs.length →
        ¬((bs.getD j 0) = 10 ∨ (bs.getD j 0) = 13 ∨ (bs.getD j 0) = chr) := by
      intro j hj
      exact find_nl_chr_before bs chr j (by have := find_nl_chr_le bs chr; omega)
    exact hmask (readLE_map_zero _ bs (all_getD _ bs heq))
  obtain ⟨m, hm, hval⟩ := mask_decompose (fun b => b = 10 ∨ b = 13 ∨ b = chr) bs
    (find_nl_chr bs chr) hlt (find_nl_chr_hit bs chr hlt)
    fun i hi => find_nl_chr_before bs chr i hi
  rw [hval, tz_pow_mul w _ m hm (by omega), shiftr3, find_nl_chr_append_lt bs rest chr hlt]

theorem swar_miss_chr (bs : List Nat) (chr : Nat)
    (hmask : readLE (bs.map fun b => if b = 10 ∨ b = 13 ∨ b = chr then 128 else 0) = 0) :
    find_nl_chr bs chr = bs.length := by
  by_contra h
  have hlt : find_nl_chr bs chr < bs.length := lt_of_le_of_ne (find_nl_chr_le bs chr) h
  obtain ⟨m, hm, hval⟩ := mask_decompose (fun b => b = 10 ∨ b = 13 ∨ b = chr) bs
    (find_nl_chr bs chr) hlt (find_nl_chr_hit bs chr hlt)
    fun i hi => find_nl_chr_before bs chr i hi
  rw [hval] at hmask
  exact pow_mul_odd_ne_zero _ m hm hmask

theorem simd_hit (bs rest : List Nat) (hw : bs.length ≤ 32)
    (hmask : movemask_epi8 (bs.map fun b => if b = 10 ∨ b = 13 then 255 else 0) ≠ 0) :
    trailing_zeros 32 (movemask_epi8 (bs.map fun b => if b = 10 ∨ b = 13 then 255 else 0)) =
      find_nl (bs ++ rest) := by
  have hlt : find_nl bs < bs.length := by
    by_contra hge
    have heq : ∀ j, j < bs.length → ¬((bs.getD j 0) = 10 ∨ (bs.getD j 0) = 13) := by
      intro j hj
      exact find_nl_before bs j (by have := find_nl_le bs; omega)
    exact hmask (movemask_zero _ bs (all_getD _ bs heq))
  obtain ⟨m, hm, hval⟩ := movemask_decompose (fun b => b = 10 ∨ b = 13) bs (find_nl bs) hlt
    (find_nl_hit bs hlt) fun i hi => find_nl_before bs i hi
  rw [hval, tz_pow_mul 32 _ m hm (by omega), find_nl_append_lt bs rest hlt]

theorem simd_miss (bs : List Nat)
    (hmask : movemask_epi8 (bs.map fun b => if b = 10 ∨ b = 13 then 255 else 0) = 0) :
    find_nl bs = bs.length := by
  by_contra h
  have hlt : find_nl bs < bs.length := lt_of_le_of_ne (find_nl_le bs) h
  obtain ⟨m, hm, hval⟩ := movemask_decompose (fun b => b = 10 ∨ b = 13) bs (find_nl bs) hlt
    (find_nl_hit bs hlt) fun i hi => find_nl_before bs i hi
  rw [hval] at hmask
  exact pow_mul_odd_ne_zero _ m hm hmask

theorem simd_hit_chr (bs rest : List Nat) (chr : Nat) (hw : bs.length ≤ 32)
    (hmask : movemask_epi8
      (bs.map fun b => if b = 10 ∨ b = 13 ∨ b = chr then 255 else 0) ≠ 0) :
    trailing_zeros 32
        (movemask_epi8 (bs.map fun b => if b = 10 ∨ b = 13 ∨ b = chr then 255 else 0)) =
      find_nl_chr (bs ++ rest) chr := by
  have hlt : find_nl_chr bs chr < bs.length := by
    by_contra hge
    have heq : ∀ j, j < bs.length →
        ¬((bs.getD j 0) = 10 ∨ (bs.getD j 0) = 13 ∨ (bs.getD j 0) = chr) := by
      intro j hj
      exact find_nl_chr_before bs chr j (by have := find_nl_chr_le bs chr; omega)
    exact hmask (movemask_zero _ bs (all_getD _ bs heq))
  obtain ⟨m, hm, hval⟩ := movemask_decompose (fun b => b = 10 ∨ b = 13 ∨ b = chr) bs
    (find_nl_chr bs chr) hlt (find_nl_chr_hit bs chr hlt)
    fun i hi => find_nl_chr_before bs chr i hi
  rw [hval, tz_pow_mul 32 _ m hm (by omega), find_nl_chr_append_lt bs rest chr hlt]

theorem simd_miss_chr (bs : List Nat) (chr : Nat)
    (hmask : movemask_epi8
      (bs.map fun b => if b = 10 ∨ b = 13 ∨ b = chr then 255 else 0) = 0) :
    find_nl_chr bs chr = bs.length := by
  by_contra h
  have hlt : find_nl_chr bs chr < bs.length := lt_of_le_of_ne (find_nl_chr_le bs chr) h
  obtain ⟨m, hm, hval⟩ := movemask_decompose (fun b => b = 10 ∨ b = 13 ∨ b = chr) bs
    (find_nl_chr bs chr) hlt (find_nl_chr_hit bs chr hlt)
    fun i hi => find_nl_chr_before bs chr i hi
  rw [hval] at hmask
  exact pow_mul_odd_ne_zero _ m hm hmask

/-! ### Backend scanner equivalence -/

theorem swar64_find_nl_eq : ∀ s : List Nat, (∀ b ∈ s, b < 256) →
    swar64.find_nl s = find_nl s := by
  intro s
  induction s using swar64.find_nl.induct with
  | case1 b0 b1 b2 b3 b4 b5 b6 b7 rest n_lit r_lit word mask hmask =>
    intro hb
    simp only [mask, word, n_lit, r_lit] at hmask
    clear mask word r_lit n_lit
    have hb8 : ∀ b ∈ [b0, b1, b2, b3, b4, b5, b6, b7], b < 256 := by
      intro x hx
      apply hb
      simp only [List.mem_cons] at hx ⊢
      tauto
    have hcanon := swar64_mask_canon [b0, b1, b2, b3, b4, b5, b6, b7] rfl hb8
    rw [hcanon] at hmask
    simp only [swar64.find_nl]
    rw [hcanon, if_pos hmask]
    exact swar_hit [b0, b1, b2, b3, b4, b5, b6, b7] rest 64 (by norm_num) hmask
  | case2 b0 b1 b2 b3 b4 b5 b6 b7 rest n_lit r_lit word mask hmask ih =>
    intro hb
    simp only [mask, word, n_lit, r_lit] at hmask
    clear mask word r_lit n_lit
    have hb8 : ∀ b ∈ [b0, b1, b2, b3, b4, b5, b6, b7], b < 256 := by
      intro x hx
      apply hb
      simp only [List.mem_cons] at hx ⊢
      tauto
    have hcanon := swar64_mask_canon [b0, b1, b2, b3, b4, b5, b6, b7] rfl hb8
    rw [hcanon] at hmask
    have hm0 : readLE (List.map (fun b => if b = 10 ∨ b = 13 then 128 else 0)
        [b0, b1, b2, b3, b4, b5, b6, b7]) = 0 := by omega
    simp only [swar64.find_nl]
    rw [hcanon, if_neg hmask]
    have hbr : ∀ b ∈ rest, b < 256 := fun x hx => hb x
      (List.mem_cons_of_mem _ (List.mem_cons_of_mem _ (List.mem_cons_of_mem _
        (List.mem_cons_of_mem _ (List.mem_cons_of_mem _ (List.mem_cons_of_mem _
          (List.mem_cons_of_mem _ (List.mem_cons_of_mem _ hx))))))))
    rw [ih hbr]
    rw [show (b0 :: b1 :: b2 :: b3 :: b4 :: b5 :: b6 :: b7 :: rest) =
        [b0, b1, b2, b3, b4, b5, b6, b7] ++ rest from rfl,
      find_nl_append_ge _ _ (swar_miss _ hm0)]
    rfl
  | case3 s hshape =>
    intro hb
    rcases s with _ | ⟨b0, s⟩
    · rfl
    rcases s with _ | ⟨b1, s⟩
    · rfl
    rcases s with _ | ⟨b2, s⟩
    · rfl
    rcases s with _ | ⟨b3, s⟩
    · rfl
    rcases s with _ | ⟨b4, s⟩
    · rfl
    rcases s with _ | ⟨b5, s⟩
    · rfl
    rcases s with _ | ⟨b6, s⟩
    · rfl
    rcases s with _ | ⟨b7, s⟩
    · rfl
    exact absurd rfl (hshape b0 b1 b2 b3 b4 b5 b6 b7 s)

theorem swar64_find_nl_chr_eq : ∀ (s : List Nat) (chr : Nat), (∀ b ∈ s, b < 256) →
    chr < 256 → swar64.find_nl_chr s chr = find_nl_chr s chr := by
  intro s chr
  induction s, chr using swar64.find_nl_chr.induct with
  | case1 b0 b1 b2 b3 b4 b5 b6 b7 rest chr n_lit r_lit c_lit word mask hmask =>
    intro hb hchr
    simp only [mask, word, c_lit, r_lit, n_lit] at hmask
    clear mask word c_lit r_lit n_lit
    have hb8 : ∀ b ∈ [b0, b1, b2, b3, b4, b5, b6, b7], b < 256 := by
      intro x hx
      apply hb
      simp only [List.mem_cons] at hx ⊢
      tauto
    have hcanon := swar64_mask_chr_canon [b0, b1, b2, b3, b4, b5, b6, b7] chr hchr rfl hb8
    rw [hcanon] at hmask
    simp only [swar64.find_nl_chr]
    rw [hcanon, if_pos hmask]
    exact swar_hit_chr [b0, b1, b2, b3, b4, b5, b6, b7] rest chr 64 (by norm_num) hmask
  | case2 b0 b1 b2 b3 b4 b5 b6 b7 rest chr n_lit r_lit c_lit word mask hmask ih =>
    intro hb hchr
    simp only [mask, word, c_lit, r_lit, n_lit] at hmask
    clear mask word c_lit r_lit n_lit
    have hb8 : ∀ b ∈ [b0, b1, b2, b3, b4, b5, b6, b7], b < 256 := by
      intro x hx
      apply hb
      simp only [List.mem_cons] at hx ⊢
      tauto
    have hcanon := swar64_mask_chr_canon [b0, b1, b2, b3, b4, b5, b6, b7] chr hchr rfl hb8
    rw [hcanon] at hmask
    have hm0 : readLE (List.map (fun b => if b = 10 ∨ b = 13 ∨ b = chr then 128 else 0)
        [b0, b1, b2, b3, b4, b5, b6, b7]) = 0 := by omega
    simp only [swar64.find_nl_chr]
    rw [hcanon, if_neg hmask]
    have hbr : ∀ b ∈ rest, b < 256 := fun x hx => hb x
      (List.mem_cons_of_mem _ (List.mem_cons_of_mem _ (List.mem_cons_of_mem _
        (List.mem_cons_of_mem _ (List.mem_cons_of_mem _ (List.mem_cons_of_mem _
          (List.mem_cons_of_mem _ (List.mem_cons_of_mem _ hx))))))))
    rw [ih hbr hchr]
    rw [show (b0 :: b1 :: b2 :: b3 :: b4 :: b5 :: b6 :: b7 :: rest) =
        [b0, b1, b2, b3, b4, b5, b6, b7] ++ rest from rfl,
      find_nl_chr_append_ge _ _ _ (swar_miss_chr _ chr hm0)]
    rfl
  | case3 s chr hshape =>
    intro hb hchr
    rcases s with _ | ⟨b0, s⟩
    · rfl
    rcases s with _ | ⟨b1, s⟩
    · rfl
    rcases s with _ | ⟨b2, s⟩
    · rfl
    rcases s with _ | ⟨b3, s⟩
    · rfl
    rcases s with _ | ⟨b4, s⟩
    · rfl
    rcases s with _ | ⟨b5, s⟩
    · rfl
    rcases s with _ | ⟨b6, s⟩
    · rfl
    rcases s with _ | ⟨b7, s⟩
    · rfl
    exact absurd rfl (hshape b0 b1 b2 b3 b4 b5 b6 b7 s)

theorem swar32_find_nl_eq : ∀ s : List Nat, (∀ b ∈ s, b < 256) →
    swar32.find_nl s = find_nl s := by
  intro s
  induction s using swar32.find_nl.induct with
  | case1 b0 b1 b2 b3 rest n_lit r_lit word mask hmask =>
    intro hb
    simp only [mask, word, r_lit, n_lit] at hmask
    clear mask word r_lit n_lit
    have hb4 : ∀ b ∈ [b0, b1, b2, b3], b < 256 := by
      intro x hx
      apply hb
      simp only [List.mem_cons] at hx ⊢
      tauto
    have hcanon := swar32_mask_canon [b0, b1, b2, b3] rfl hb4
    rw [hcanon] at hmask
    simp only [swar32.find_nl]
    rw [hcanon, if_pos hmask]
    exact swar_hit [b0, b1, b2, b3] rest 32 (by norm_num) hmask
  | case2 b0 b1 b2 b3 rest n_lit r_lit word mask hmask ih =>
    intro hb
    simp only [mask, word, r_lit, n_lit] at hmask
    clear mask word r_lit n_lit
    have hb4 : ∀ b ∈ [b0, b1, b2, b3], b < 256 := by
      intro x hx
      apply hb
      simp only [List.mem_cons] at hx ⊢
      tauto
    have hcanon := swar32_mask_canon [b0, b1, b2, b3] rfl hb4
    rw [hcanon] at hmask
    have hm0 : readLE (List.map (fun b => if b = 10 ∨ b = 13 then 128 else 0)
        [b0, b1, b2, b3]) = 0 := by omega
    simp only [swar32.find_nl]
    rw [hcanon, if_neg hmask]
    have hbr : ∀ b ∈ rest, b < 256 := fun x hx => hb x
      (List.mem_cons_of_mem _ (List.mem_cons_of_mem _ (List.mem_cons_of_mem _ (List.mem_cons_of_mem _ hx))))
    rw [ih hbr]
    rw [show (b0 :: b1 :: b2 :: b3 :: rest) = [b0, b1, b2, b3] ++ rest from rfl,
      find_nl_append_ge _ _ (swar_miss _ hm0)]
    rfl
  | case3 s hshape =>
    intro hb
    rcases s with _ | ⟨b0, s⟩
    · rfl
    rcases s with _ | ⟨b1, s⟩
    · rfl
    rcases s with _ | ⟨b2, s⟩
    · rfl
    rcases s with _ | ⟨b3, s⟩
    · rfl
    exact absurd rfl (hshape b0 b1 b2 b3 s)

theorem swar32_find_nl_chr_eq : ∀ (s : List Nat) (chr : Nat), (∀ b ∈ s, b < 256) →
    chr < 256 → swar32.find_nl_chr s chr = find_nl_chr s chr := by
  intro s chr
  induction s, chr using swar32.find_nl_chr.induct with
  | case1 b0 b1 b2 b3 rest chr n_lit r_lit c_lit word mask hmask =>
    intro hb hchr
    simp only [mask, word, c_lit, r_lit, n_lit] at hmask
    clear mask word c_lit r_lit n_lit
    have hb4 : ∀ b ∈ [b0, b1, b2, b3], b < 256 := by
      intro x hx
      apply hb
      simp only [List.mem_cons] at hx ⊢
      tauto
    have hcanon := swar32_mask_chr_canon [b0, b1, b2, b3] chr hchr rfl hb4
    rw [hcanon] at hmask
    simp only [swar32.find_nl_chr]
    rw [hcanon, if_pos hmask]
    exact swar_hit_chr [b0, b1, b2, b3] rest chr 32 (by norm_num) hmask
  | case2 b0 b1 b2 b3 rest chr n_lit r_lit c_lit word mask hmask ih =>
    intro hb hchr
    simp only [mask, word, c_lit, r_lit, n_lit] at hmask
    clear mask word c_lit r_lit n_lit
    have hb4 : ∀ b ∈ [b0, b1, b2, b3], b < 256 := by
      intro x hx
      apply hb
      simp only [List.mem_cons] at hx ⊢
      tauto
    have hcanon := swar32_mask_chr_canon [b0, b1, b2, b3] chr hchr rfl hb4
    rw [hcanon] at hmask
    have hm0 : readLE (List.map (fun b => if b = 10 ∨ b = 13 ∨ b = chr then 128 else 0)
        [b0, b1, b2, b3]) = 0 := by omega
    simp only [swar32.find_nl_chr]
    rw [hcanon, if_neg hmask]
    have hbr : ∀ b ∈ rest, b < 256 := fun x hx => hb x
      (List.mem_cons_of_mem _ (List.mem_cons_of_mem _ (List.mem_cons_of_mem _ (List.mem_cons_of_mem _ hx))))
    rw [ih hbr hchr]
    rw [show (b0 :: b1 :: b2 :: b3 :: rest) = [b0, b1, b2, b3] ++ rest from rfl,
      find_nl_chr_append_ge _ _ _ (swar_miss_chr _ chr hm0)]
    rfl
  | case3 s chr hshape =>
    intro hb hchr
    rcases s with _ | ⟨b0, s⟩
    · rfl
    rcases s with _ | ⟨b1, s⟩
    · rfl
    rcases s with _ | ⟨b2, s⟩
    · rfl
    rcases s with _ | ⟨b3, s⟩
    · rfl
    exact absurd rfl (hshape b0 b1 b2 b3 s)

theorem sse2_find_nl_eq : ∀ s : List Nat, sse2.find_nl s = find_nl s := by
  intro s
  induction s using sse2.find_nl.induct with
  | case1 b0 b1 b2 b3 b4 b5 b6 b7 b8 b9 b10 b11 b12 b13 b14 b15 rest n_lit r_lit block mask hmask =>
    simp only [mask, block, r_lit, n_lit] at hmask
    clear mask block r_lit n_lit
    have hcanon := simd_mask_canon [b0, b1, b2, b3, b4, b5, b6, b7, b8, b9, b10, b11, b12, b13, b14, b15] 16 ⟨rfl, rfl⟩
    rw [hcanon] at hmask
    simp only [sse2.find_nl]
    rw [hcanon, if_pos hmask]
    exact simd_hit [b0, b1, b2, b3, b4, b5, b6, b7, b8, b9, b10, b11, b12, b13, b14, b15] rest (by norm_num) hmask
  | case2 b0 b1 b2 b3 b4 b5 b6 b7 b8 b9 b10 b11 b12 b13 b14 b15 rest n_lit r_lit block mask hmask ih =>
    simp only [mask, block, r_lit, n_lit] at hmask
    clear mask block r_lit n_lit
    have hcanon := simd_mask_canon [b0, b1, b2, b3, b4, b5, b6, b7, b8, b9, b10, b11, b12, b13, b14, b15] 16 ⟨rfl, rfl⟩
    rw [hcanon] at hmask
    have hm0 : movemask_epi8 (List.map (fun b => if b = 10 ∨ b = 13 then 255 else 0)
        [b0, b1, b2, b3, b4, b5, b6, b7, b8, b9, b10, b11, b12, b13, b14, b15]) = 0 := by omega
    simp only [sse2.find_nl]
    rw [hcanon, if_neg hmask]
    rw [ih]
    rw [show (b0 :: b1 :: b2 :: b3 :: b4 :: b5 :: b6 :: b7 :: b8 :: b9 :: b10 :: b11 :: b12 :: b13 :: b14 :: b15 :: rest) = [b0, b1, b2, b3, b4, b5, b6, b7, b8, b9, b10, b11, b12, b13, b14, b15] ++ rest from rfl,
      find_nl_append_ge _ _ (simd_miss _ hm0)]
    rfl
  | case3 s hshape =>
    rcases s with _ | ⟨b0, s⟩
    · rfl
    rcases s with _ | ⟨b1, s⟩
    · rfl
    rcases s with _ | ⟨b2, s⟩
    · rfl
    rcases s with _ | ⟨b3, s⟩
    · rfl
    rcases s with _ | ⟨b4, s⟩
    · rfl
    rcases s with _ | ⟨b5, s⟩
    · rfl
    rcases s with _ | ⟨b6, s⟩
    · rfl
    rcases s with _ | ⟨b7, s⟩
    · rfl
    rcases s with _ | ⟨b8, s⟩
    · rfl
    rcases s with _ | ⟨b9, s⟩
    · rfl
    rcases s with _ | ⟨b10, s⟩
    · rfl
    rcases s with _ | ⟨b11, s⟩
    · rfl
    rcases s with _ | ⟨b12, s⟩
    · rfl
    rcases s with _ | ⟨b13, s⟩
    · rfl
    rcases s with _ | ⟨b14, s⟩
    · rfl
    rcases s with _ | ⟨b15, s⟩
    · rfl
    exact absurd rfl (hshape b0 b1 b2 b3 b4 b5 b6 b7 b8 b9 b10 b11 b12 b13 b14 b15 s)

theorem sse2_find_nl_chr_eq : ∀ (s : List Nat) (chr : Nat),
    sse2.find_nl_chr s chr = find_nl_chr s chr := by
  intro s chr
  induction s, chr using sse2.find_nl_chr.induct with
  | case1 b0 b1 b2 b3 b4 b5 b6 b7 b8 b9 b10 b11 b12 b13 b14 b15 rest chr n_lit r_lit c_lit block mask hmask =>
    simp only [mask, block, c_lit, r_lit, n_lit] at hmask
    clear mask block c_lit r_lit n_lit
    have hcanon := simd_mask_chr_canon [b0, b1, b2, b3, b4, b5, b6, b7, b8, b9, b10, b11, b12, b13, b14, b15] chr 16 ⟨rfl, rfl, rfl⟩
    rw [hcanon] at hmask
    simp only [sse2.find_nl_chr]
    rw [hcanon, if_pos hmask]
    exact simd_hit_chr [b0, b1, b2, b3, b4, b5, b6, b7, b8, b9, b10, b11, b12, b13, b14, b15] rest chr (by norm_num) hmask
  | case2 b0 b1 b2 b3 b4 b5 b6 b7 b8 b9 b10 b11 b12 b13 b14 b15 rest chr n_lit r_lit c_lit block mask hmask ih =>
    simp only [mask, block, c_lit, r_lit, n_lit] at hmask
    clear mask block c_lit r_lit n_lit
    have hcanon := simd_mask_chr_canon [b0, b1, b2, b3, b4, b5, b6, b7, b8, b9, b10, b11, b12, b13, b14, b15] chr 16 ⟨rfl, rfl, rfl⟩
    rw [hcanon] at hmask
    have hm0 : movemask_epi8 (List.map (fun b => if b = 10 ∨ b = 13 ∨ b = chr then 255 else 0)
        [b0, b1, b2, b3, b4, b5, b6, b7, b8, b9, b10, b11, b12, b13, b14, b15]) = 0 := by omega
    simp only [sse2.find_nl_chr]
    rw [hcanon, if_neg hmask]
    rw [ih]
    rw [show (b0 :: b1 :: b2 :: b3 :: b4 :: b5 :: b6 :: b7 :: b8 :: b9 :: b10 :: b11 :: b12 :: b13 :: b14 :: b15 :: rest) = [b0, b1, b2, b3, b4, b5, b6, b7, b8, b9, b10, b11, b12, b13, b14, b15] ++ rest from rfl,
      find_nl_chr_append_ge _ _ _ (simd_miss_chr _ chr hm0)]
    rfl
  | case3 s chr hshape =>
    rcases s with _ | ⟨b0, s⟩
    · rfl
    rcases s with _ | ⟨b1, s⟩
    · rfl
    rcases s with _ | ⟨b2, s⟩
    · rfl
    rcases s with _ | ⟨b3, s⟩
    · rfl
    rcases s with _ | ⟨b4, s⟩
    · rfl
    rcases s with _ | ⟨b5, s⟩
    · rfl
    rcases s with _ | ⟨b6, s⟩
    · rfl
    rcases s with _ | ⟨b7, s⟩
    · rfl
    rcases s with _ | ⟨b8, s⟩
    · rfl
    rcases s with _ | ⟨b9, s⟩
    · rfl
    rcases s with _ | ⟨b10, s⟩
    · rfl
    rcases s with _ | ⟨b11, s⟩
    · rfl
    rcases s with _ | ⟨b12, s⟩
    · rfl
    rcases s with _ | ⟨b13, s⟩
    · rfl
    rcases s with _ | ⟨b14, s⟩
    · rfl
    rcases s with _ | ⟨b15, s⟩
    · rfl
    exact absurd rfl (hshape b0 b1 b2 b3 b4 b5 b6 b7 b8 b9 b10 b11 b12 b13 b14 b15 s)

theorem avx2_find_nl_eq : ∀ s : List Nat, avx2.find_nl s = find_nl s := by
  intro s
  induction s using avx2.find_nl.induct with
  | case1 b0 b1 b2 b3 b4 b5 b6 b7 b8 b9 b10 b11 b12 b13 b14 b15 b16 b17 b18 b19 b20 b21 b22 b23 b24 b25 b26 b27 b28 b29 b30 b31 rest n_lit r_lit block mask hmask =>
    simp only [mask, block, r_lit, n_lit] at hmask
    clear mask block r_lit n_lit
    have hcanon := simd_mask_canon [b0, b1, b2, b3, b4, b5, b6, b7, b8, b9, b10, b11, b12, b13, b14, b15, b16, b17, b18, b19, b20, b21, b22, b23, b24, b25, b26, b27, b28, b29, b30, b31] 32 ⟨rfl, rfl⟩
    rw [hcanon] at hmask
    simp only [avx2.find_nl]
    rw [hcanon, if_pos hmask]
    exact simd_hit [b0, b1, b2, b3, b4, b5, b6, b7, b8, b9, b10, b11, b12, b13, b14, b15, b16, b17, b18, b19, b20, b21, b22, b23, b24, b25, b26, b27, b28, b29, b30, b31] rest (by norm_num) hmask
  | case2 b0 b1 b2 b3 b4 b5 b6 b7 b8 b9 b10 b11 b12 b13 b14 b15 b16 b17 b18 b19 b20 b21 b22 b23 b24 b25 b26 b27 b28 b29 b30 b31 rest n_lit r_lit block mask hmask ih =>
    simp only [mask, block, r_lit, n_lit] at hmask
    clear mask block r_lit n_lit
    have hcanon := simd_mask_canon [b0, b1, b2, b3, b4, b5, b6, b7, b8, b9, b10, b11, b12, b13, b14, b15, b16, b17, b18, b19, b20, b21, b22, b23, b24, b25, b26, b27, b28, b29, b30, b31] 32 ⟨rfl, rfl⟩
    rw [hcanon] at hmask
    have hm0 : movemask_epi8 (List.map (fun b => if b = 10 ∨ b = 13 then 255 else 0)
        [b0, b1, b2, b3, b4, b5, b6, b7, b8, b9, b10, b11, b12, b13, b14, b15, b16, b17, b18, b19, b20, b21, b22, b23, b24, b25, b26, b27, b28, b29, b30, b31]) = 0 := by omega
    simp only [avx2.find_nl]
    rw [hcanon, if_neg hmask]
    rw [ih]
    rw [show (b0 :: b1 :: b2 :: b3 :: b4 :: b5 :: b6 :: b7 :: b8 :: b9 :: b10 :: b11 :: b12 :: b13 :: b14 :: b15 :: b16 :: b17 :: b18 :: b19 :: b20 :: b21 :: b22 :: b23 :: b24 :: b25 :: b26 :: b27 :: b28 :: b29 :: b30 :: b31 :: rest) = [b0, b1, b2, b3, b4, b5, b6, b7, b8, b9, b10, b11, b12, b13, b14, b15, b16, b17, b18, b19, b20, b21, b22, b23, b24, b25, b26, b27, b28, b29, b30, b31] ++ rest from rfl,
      find_nl_append_ge _ _ (simd_miss _ hm0)]
    rfl
  | case3 s hshape =>
    rcases s with _ | ⟨b0, s⟩
    · rfl
    rcases s with _ | ⟨b1, s⟩
    · rfl
    rcases s with _ | ⟨b2, s⟩
    · rfl
    rcases s with _ | ⟨b3, s⟩
    · rfl
    rcases s with _ | ⟨b4, s⟩
    · rfl
    rcases s with _ | ⟨b5, s⟩
    · rfl
    rcases s with _ | ⟨b6, s⟩
    · rfl
    rcases s with _ | ⟨b7, s⟩
    · rfl
    rcases s with _ | ⟨b8, s⟩
    · rfl
    rcases s with _ | ⟨b9, s⟩
    · rfl
    rcases s with _ | ⟨b10, s⟩
    · rfl
    rcases s with _ | ⟨b11, s⟩
    · rfl
    rcases s with _ | ⟨b12, s⟩
    · rfl
    rcases s with _ | ⟨b13, s⟩
    · rfl
    rcases s with _ | ⟨b14, s⟩
    · rfl
    rcases s with _ | ⟨b15, s⟩
    · rfl
    rcases s with _ | ⟨b16, s⟩
    · rfl
    rcases s with _ | ⟨b17, s⟩
    · rfl
    rcases s with _ | ⟨b18, s⟩
    · rfl
    rcases s with _ | ⟨b19, s⟩
    · rfl
    rcases s with _ | ⟨b20, s⟩
    · rfl
    rcases s with _ | ⟨b21, s⟩
    · rfl
    rcases s with _ | ⟨b22, s⟩
    · rfl
    rcases s with _ | ⟨b23, s⟩
    · rfl
    rcases s with _ | ⟨b24, s⟩
    · rfl
    rcases s with _ | ⟨b25, s⟩
    · rfl
    rcases s with _ | ⟨b26, s⟩
    · rfl
    rcases s with _ | ⟨b27, s⟩
    · rfl
    rcases s with _ | ⟨b28, s⟩
    · rfl
    rcases s with _ | ⟨b29, s⟩
    · rfl
    rcases s with _ | ⟨b30, s⟩
    · rfl
    rcases s with _ | ⟨b31, s⟩
    · rfl
    exact absurd rfl (hshape b0 b1 b2 b3 b4 b5 b6 b7 b8 b9 b10 b11 b12 b13 b14 b15 b16 b17 b18 b19 b20 b21 b22 b23 b24 b25 b26 b27 b28 b29 b30 b31 s)

theorem avx2_find_nl_chr_eq : ∀ (s : List Nat) (chr : Nat),
    avx2.find_nl_chr s chr = find_nl_chr s chr := by
  intro s chr
  induction s, chr using avx2.find_nl_chr.induct with
  | case1 b0 b1 b2 b3 b4 b5 b6 b7 b8 b9 b10 b11 b12 b13 b14 b15 b16 b17 b18 b19 b20 b21 b22 b23 b24 b25 b26 b27 b28 b29 b30 b31 rest chr n_lit r_lit c_lit block mask hmask =>
    simp only [mask, block, c_lit, r_lit, n_lit] at hmask
    clear mask block c_lit r_lit n_lit
    have hcanon := simd_mask_chr_canon [b0, b1, b2, b3, b4, b5, b6, b7, b8, b9, b10, b11, b12, b13, b14, b15, b16, b17, b18, b19, b20, b21, b22, b23, b24, b25, b26, b27, b28, b29, b30, b31] chr 32 ⟨rfl, rfl, rfl⟩
    rw [hcanon] at hmask
    simp only [avx2.find_nl_chr]
    rw [hcanon, if_pos hmask]
    exact simd_hit_chr [b0, b1, b2, b3, b4, b5, b6, b7, b8, b9, b10, b11, b12, b13, b14, b15, b16, b17, b18, b19, b20, b21, b22, b23, b24, b25, b26, b27, b28, b29, b30, b31] rest chr (by norm_num) hmask
  | case2 b0 b1 b2 b3 b4 b5 b6 b7 b8 b9 b10 b11 b12 b13 b14 b15 b16 b17 b18 b19 b20 b21 b22 b23 b24 b25 b26 b27 b28 b29 b30 b31 rest chr n_lit r_lit c_lit block mask hmask ih =>
    simp only [mask, block, c_lit, r_lit, n_lit] at hmask
    clear mask block c_lit r_lit n_lit
    have hcanon := simd_mask_chr_canon [b0, b1, b2, b3, b4, b5, b6, b7, b8, b9, b10, b11, b12, b13, b14, b15, b16, b17, b18, b19, b20, b21, b22, b23, b24, b25, b26, b27, b28, b29, b30, b31] chr 32 ⟨rfl, rfl, rfl⟩
    rw [hcanon] at hmask
    have hm0 : movemask_epi8 (List.map (fun b => if b = 10 ∨ b = 13 ∨ b = chr then 255 else 0)
        [b0, b1, b2, b3, b4, b5, b6, b7, b8, b9, b10, b11, b12, b13, b14, b15, b16, b17, b18, b19, b20, b21, b22, b23, b24, b25, b26, b27, b28, b29, b30, b31]) = 0 := by omega
    simp only [avx2.find_nl_chr]
    rw [hcanon, if_neg hmask]
    rw [ih]
    rw [show (b0 :: b1 :: b2 :: b3 :: b4 :: b5 :: b6 :: b7 :: b8 :: b9 :: b10 :: b11 :: b12 :: b13 :: b14 :: b15 :: b16 :: b17 :: b18 :: b19 :: b20 :: b21 :: b22 :: b23 :: b24 :: b25 :: b26 :: b27 :: b28 :: b29 :: b30 :: b31 :: rest) = [b0, b1, b2, b3, b4, b5, b6, b7, b8, b9, b10, b11, b12, b13, b14, b15, b16, b17, b18, b19, b20, b21, b22, b23, b24, b25, b26, b27, b28, b29, b30, b31] ++ rest from rfl,
      find_nl_chr_append_ge _ _ _ (simd_miss_chr _ chr hm0)]
    rfl
  | case3 s chr hshape =>
    rcases s with _ | ⟨b0, s⟩
    · rfl
    rcases s with _ | ⟨b1, s⟩
    · rfl
    rcases s with _ | ⟨b2, s⟩
    · rfl
    rcases s with _ | ⟨b3, s⟩
    · rfl
    rcases s with _ | ⟨b4, s⟩
    · rfl
    rcases s with _ | ⟨b5, s⟩
    · rfl
    rcases s with _ | ⟨b6, s⟩
    · rfl
    rcases s with _ | ⟨b7, s⟩
    · rfl
    rcases s with _ | ⟨b8, s⟩
    · rfl
    rcases s with _ | ⟨b9, s⟩
    · rfl
    rcases s with _ | ⟨b10, s⟩
    · rfl
    rcases s with _ | ⟨b11, s⟩
    · rfl
    rcases s with _ | ⟨b12, s⟩
    · rfl
    rcases s with _ | ⟨b13, s⟩
    · rfl
    rcases s with _ | ⟨b14, s⟩
    · rfl
    rcases s with _ | ⟨b15, s⟩
    · rfl
    rcases s with _ | ⟨b16, s⟩
    · rfl
    rcases s with _ | ⟨b17, s⟩
    · rfl
    rcases s with _ | ⟨b18, s⟩
    · rfl
    rcases s with _ | ⟨b19, s⟩
    · rfl
    rcases s with _ | ⟨b20, s⟩
    · rfl
    rcases s with _ | ⟨b21, s⟩
    · rfl
    rcases s with _ | ⟨b22, s⟩
    · rfl
    rcases s with _ | ⟨b23, s⟩
    · rfl
    rcases s with _ | ⟨b24, s⟩
    · rfl
    rcases s with _ | ⟨b25, s⟩
    · rfl
    rcases s with _ | ⟨b26, s⟩
    · rfl
    rcases s with _ | ⟨b27, s⟩
    · rfl
    rcases s with _ | ⟨b28, s⟩
    · rfl
    rcases s with _ | ⟨b29, s⟩
    · rfl
    rcases s with _ | ⟨b30, s⟩
    · rfl
    rcases s with _ | ⟨b31, s⟩
    · rfl
    exact absurd rfl (hshape b0 b1 b2 b3 b4 b5 b6 b7 b8 b9 b10 b11 b12 b13 b14 b15 b16 b17 b18 b19 b20 b21 b22 b23 b24 b25 b26 b27 b28 b29 b30 b31 s)

/-- C3: For every byte slice s and every byte chr, each backend implementation of
find_nl and find_nl_chr (swar32, swar64, sse2, avx2) returns exactly the same index
as the scalar generic implementation on the same arguments. -/
theorem claim_C3 (s : List Nat) (chr : Nat) (hb : ∀ b ∈ s, b < 256) (hchr : chr < 256) :
    swar32.find_nl s = find_nl s ∧
    swar64.find_nl s = find_nl s ∧
    sse2.find_nl s = find_nl s ∧
    avx2.find_nl s = find_nl s ∧
    swar32.find_nl_chr s chr = find_nl_chr s chr ∧
    swar64.find_nl_chr s chr = find_nl_chr s chr ∧
    sse2.find_nl_chr s chr = find_nl_chr s chr ∧
    avx2.find_nl_chr s chr = find_nl_chr s chr :=
  ⟨swar32_find_nl_eq s hb, swar64_find_nl_eq s hb, sse2_find_nl_eq s, avx2_find_nl_eq s,
   swar32_find_nl_chr_eq s chr hb hchr, swar64_find_nl_chr_eq s chr hb hchr,
   sse2_find_nl_chr_eq s chr, avx2_find_nl_chr_eq s chr⟩

theorem claim_C3_witness :
    (∀ b ∈ ([91, 97, 13, 61, 10, 200, 0, 255] : List Nat), b < 256) ∧ (61 : Nat) < 256 ∧
    (swar32.find_nl [91, 97, 13, 61, 10, 200, 0, 255] = find_nl [91, 97, 13, 61, 10, 200, 0, 255] ∧
     swar64.find_nl [91, 97, 13, 61, 10, 200, 0, 255] = find_nl [91, 97, 13, 61, 10, 200, 0, 255] ∧
     sse2.find_nl [91, 97, 13, 61, 10, 200, 0, 255] = find_nl [91, 97, 13, 61, 10, 200, 0, 255] ∧
     avx2.find_nl [91, 97, 13, 61, 10, 200, 0, 255] = find_nl [91, 97, 13, 61, 10, 200, 0, 255] ∧
     swar32.find_nl_chr [91, 97, 13, 61, 10, 200, 0, 255] 61 = find_nl_chr [91, 97, 13, 61, 10, 200, 0, 255] 61 ∧
     swar64.find_nl_chr [91, 97, 13, 61, 10, 200, 0, 255] 61 = find_nl_chr [91, 97, 13, 61, 10, 200, 0, 255] 61 ∧
     sse2.find_nl_chr [91, 97, 13, 61, 10, 200, 0, 255] 61 = find_nl_chr [91, 97, 13, 61, 10, 200, 0, 255] 61 ∧
     avx2.find_nl_chr [91, 97, 13, 61, 10, 200, 0, 255] 61 = find_nl_chr [91, 97, 13, 61, 10, 200, 0, 255] 61) :=
  ⟨by decide, by decide, claim_C3 [91, 97, 13, 61, 10, 200, 0, 255] 61 (by decide) (by decide)⟩

end IniCore
